import Mathlib

/-!
# scconf: the configuration tree accessors and the schema-driven decoder

A shallow embedding of `src/scconf/scconf.c`, followed by the loop of
`src/tests/lottery.c` that draws the numbers of a row.

* A C string is the list of its bytes, the terminating zero byte left out.
* A `scconf_list *` is a Lean list of nodes, the null pointer being `[]`; the
  `data` field of a node may be a null pointer (`scconf_list_add` stores one
  when it is given one), hence `Option CStr`.
* The entry array handed to the decoder is the list of the entries that stand
  before the terminating entry (the one whose `name` is null).
* The cell a `parm` pointer points to is kept inside the entry, so the list of
  entries returned by the decoder is the memory after the call.
* A callback is a function of the arguments it is called with; the status it
  returns is all the decoder sees of it.
* Behaviour the C standard leaves undefined is the result `Fault.undefined`.
  Allocation is taken to succeed. The lines written to the standard streams are
  not part of the model; in their place a run carries a trace with one event
  for each call of `parse_type` and one for each call of a callback.
-/

namespace Scconf

/-! ## Data model -/

/-- The bytes of a zero-terminated C string, without the terminator. -/
abbrev CStr := List Nat

/-- Modelled from the spec: the struct `scconf_list` is declared in the header
`scconf.h`, which is not among the sources. A list is the sequence of its nodes
(the fields `next`), each node being its `data` pointer. -/
abbrev scconf_list := List (Option CStr)

mutual
/-- Modelled from the spec: the struct `scconf_item` is declared in the header
`scconf.h`, which is not among the sources. An item is its `key` together with
the member of the `value` union its `type` tag selects (comment, block or
list); the field `next` is the rest of the list the item stands in. -/
inductive scconf_item where
  | comment (key : Option CStr) (text : Option CStr)
  | block (key : CStr) (b : scconf_block)
  | value (key : CStr) (list : scconf_list)
/-- Modelled from the spec: the struct `scconf_block` is declared in the header
`scconf.h`, which is not among the sources. A block is its `name` list and its
`items`, in document order. -/
inductive scconf_block where
  | mk (name : scconf_list) (items : List scconf_item)
end

/-- The field `name` of a block. -/
def scconf_block.name : scconf_block → scconf_list
  | .mk n _ => n

/-- The field `items` of a block. -/
def scconf_block.items : scconf_block → List scconf_item
  | .mk _ is => is

/-- Modelled from the spec: the struct `scconf_context` is declared in the
header `scconf.h`, which is not among the sources. The fields are those the
accessors and the decoder read: the root block and the trace flag. -/
structure scconf_context where
  root : scconf_block
  debug : Bool

/-- The two ways a run of the model ends without a C result: behaviour the C
standard leaves undefined, and the recursion budget of `parse_entries` used up. -/
inductive Fault where
  | undefined
  | fuel
deriving DecidableEq, Repr

/-- Modelled from the spec: the header `scconf.h`, which defines the type tags
`SCCONF_CALLBACK`, `SCCONF_BLOCK`, `SCCONF_LIST`, `SCCONF_BOOLEAN`,
`SCCONF_INTEGER` and `SCCONF_STRING`, is not among the sources. The six tags of
the spec (Callback, NestedSchema, List, Boolean, Integer, String) are the six
first constructors; `other tag` is any value of the `type` field different from
all six. -/
inductive scconf_type where
  | CALLBACK
  | BLOCK
  | LIST
  | BOOLEAN
  | INTEGER
  | STRING
  | other (tag : Int)
deriving DecidableEq, Repr

/-- Modelled from the spec: the header `scconf.h`, which defines the flag bits
`SCCONF_PRESENT`, `SCCONF_MANDATORY`, `SCCONF_ALLOC`, `SCCONF_ALL_BLOCKS` and
`SCCONF_VERBOSE`, is not among the sources. The `flags` word is the record of
its five bits (Present, Mandatory, OwnedCopy, AllMatches, Verbose); testing
`flags & BIT` reads a field and `flags |= BIT` sets one. -/
structure Flags where
  PRESENT : Bool
  MANDATORY : Bool
  ALLOC : Bool
  ALL_BLOCKS : Bool
  VERBOSE : Bool
deriving DecidableEq, Repr

/-- A callback: from the candidate block, the name of the entry and the depth
to the status it returns. -/
abbrev callback_t := scconf_block → CStr → Nat → Int

mutual
/-- Modelled from the spec: the field `parm` of `scconf_entry`, declared in the
header `scconf.h` (not among the sources) as an untyped pointer. The value says
what the pointer points to and holds the content of the cell it points to. -/
inductive Parm where
  /-- The null pointer. -/
  | null
  /-- A callback function. -/
  | func (f : callback_t)
  /-- A nested entry array. -/
  | entries (sub : List scconf_entry)
  /-- An `int` variable holding `v`. -/
  | intp (v : Int)
  /-- A `scconf_list *` variable holding the list `v`. -/
  | listp (v : scconf_list)
  /-- A caller-provided `char` array with the bytes `bytes`. -/
  | buf (bytes : List Nat)
  /-- A `char *` variable: null, or pointing to an allocated array. -/
  | strp (p : Option (List Nat))
/-- Modelled from the spec: the struct `scconf_entry` is declared in the header
`scconf.h`, which is not among the sources. The fields are the five that
`scconf.c` reads; `arg` is null or points to a `size_t` holding a number. -/
inductive scconf_entry where
  | mk (name : CStr) (type : scconf_type) (parm : Parm) (arg : Option Nat) (flags : Flags)
end

/-- The field `name` of an entry. -/
def scconf_entry.name : scconf_entry → CStr
  | .mk n _ _ _ _ => n

/-- The field `type` of an entry. -/
def scconf_entry.type : scconf_entry → scconf_type
  | .mk _ t _ _ _ => t

/-- The field `parm` of an entry. -/
def scconf_entry.parm : scconf_entry → Parm
  | .mk _ _ p _ _ => p

/-- The field `arg` of an entry. -/
def scconf_entry.arg : scconf_entry → Option Nat
  | .mk _ _ _ a _ => a

/-- The field `flags` of an entry. -/
def scconf_entry.flags : scconf_entry → Flags
  | .mk _ _ _ _ f => f

/-! ## The C library functions the file calls -/

/-- The function `tolower` of the C locale. -/
def tolower (c : Nat) : Nat := if 65 ≤ c ∧ c ≤ 90 then c + 32 else c

/-- The function `toupper` of the C locale. -/
def toupper (c : Nat) : Nat := if 97 ≤ c ∧ c ≤ 122 then c - 32 else c

/-- The function `strcasecmp`: the difference of the first two bytes that
differ after `tolower`, the end of a string counting as the byte 0. -/
def strcasecmp : CStr → CStr → Int
  | [], [] => 0
  | [], b :: _ => 0 - (tolower b : Int)
  | a :: _, [] => (tolower a : Int)
  | a :: s, b :: t =>
    if tolower a = tolower b then strcasecmp s t else (tolower a : Int) - (tolower b : Int)

/-- The function `isspace` of the C locale. -/
def isspace (c : Nat) : Bool := c == 32 || (9 ≤ c && c ≤ 13)

/-- The function `isdigit`. -/
def isdigit (c : Nat) : Bool := 48 ≤ c && c ≤ 57

/-- The value of the longest run of decimal digits at the head of a string. -/
def atoi_digits (acc : Nat) : CStr → Nat
  | [] => acc
  | c :: s => if isdigit c then atoi_digits (acc * 10 + (c - 48)) s else acc

/-- The function `atoi`: white space, an optional sign, then decimal digits;
a value that does not fit an `int` of 32 bits is undefined behaviour. -/
def atoi (s : CStr) : Except Fault Int :=
  let t := s.dropWhile isspace
  let v : Int :=
    match t with
    | 45 :: u => - (atoi_digits 0 u : Int)
    | 43 :: u => (atoi_digits 0 u : Int)
    | _ => (atoi_digits 0 t : Int)
  if -2147483648 ≤ v ∧ v ≤ 2147483647 then .ok v else .error .undefined

/-! ## Tree accessors -/

/-- The loop of `scconf_find_block` over the items of a block. -/
def find_block_loop (item_name : CStr) : List scconf_item → Option scconf_block
  | [] => none
  | .block k b :: rest =>
    if strcasecmp item_name k = 0 then some b else find_block_loop item_name rest
  | _ :: rest => find_block_loop item_name rest

/-- The function `scconf_find_block`. -/
def scconf_find_block (config : scconf_context) (block : Option scconf_block)
    (item_name : Option CStr) : Option scconf_block :=
  let block := match block with
    | none => config.root
    | some b => b
  match item_name with
  | none => none
  | some n => find_block_loop n block.items

/-- The loop of `scconf_find_blocks` over the items of a block: the blocks
stored in the array, in the order they are stored. Reading the first name token
of a block that has no name list, or whose first node has no data, is undefined. -/
def find_blocks_loop (item_name : CStr) (key : Option CStr) :
    List scconf_item → Except Fault (List scconf_block)
  | [] => .ok []
  | .block k b :: rest =>
    if strcasecmp item_name k = 0 then
      match key with
      | none => (find_blocks_loop item_name key rest).map (fun bs => b :: bs)
      | some ky =>
        match b.name with
        | some d :: _ =>
          if strcasecmp ky d ≠ 0 then find_blocks_loop item_name key rest
          else (find_blocks_loop item_name key rest).map (fun bs => b :: bs)
        | _ => .error .undefined
    else find_blocks_loop item_name key rest
  | _ :: rest => find_blocks_loop item_name key rest

/-- The function `scconf_find_blocks`: `none` is the null pointer, `some bs` the
array holding the blocks `bs` followed by the terminating null pointer. -/
def scconf_find_blocks (config : scconf_context) (block : Option scconf_block)
    (item_name : Option CStr) (key : Option CStr) :
    Except Fault (Option (List scconf_block)) :=
  let block := match block with
    | none => config.root
    | some b => b
  match item_name with
  | none => .ok none
  | some n => (find_blocks_loop n key block.items).map some

/-- The loop of `scconf_find_list` over the items of a block. -/
def find_list_loop (option : CStr) : List scconf_item → scconf_list
  | [] => []
  | .value k l :: rest => if strcasecmp option k = 0 then l else find_list_loop option rest
  | _ :: rest => find_list_loop option rest

/-- The function `scconf_find_list`; the null pointer is the empty list. -/
def scconf_find_list (block : Option scconf_block) (option : CStr) : scconf_list :=
  match block with
  | none => []
  | some b => find_list_loop option b.items

/-- The function `scconf_get_str`. -/
def scconf_get_str (block : Option scconf_block) (option : CStr) (dflt : Option CStr) :
    Option CStr :=
  match scconf_find_list block option with
  | [] => dflt
  | d :: _ => d

/-- The function `scconf_get_int`; `atoi` of a null pointer is undefined. -/
def scconf_get_int (block : Option scconf_block) (option : CStr) (dflt : Int) :
    Except Fault Int :=
  match scconf_find_list block option with
  | [] => .ok dflt
  | none :: _ => .error .undefined
  | some d :: _ => atoi d

/-- The function `scconf_get_bool`; reading through a null `data` pointer is
undefined, and the first byte of the empty string is the terminator 0. -/
def scconf_get_bool (block : Option scconf_block) (option : CStr) (dflt : Int) :
    Except Fault Int :=
  match scconf_find_list block option with
  | [] => .ok dflt
  | none :: _ => .error .undefined
  | some d :: _ =>
    let c := d.headD 0
    .ok (if toupper c = 84 ∨ toupper c = 89 then 1 else 0)

/-! ## List utilities -/

/-- The function `scconf_list_add`: the list after the call, a node holding a
copy of `value` (or a null pointer) appended at its end. -/
def scconf_list_add (list : scconf_list) (value : Option CStr) : scconf_list :=
  list ++ [value]

/-- The function `scconf_list_array_length`. -/
def scconf_list_array_length : scconf_list → Nat
  | [] => 0
  | _ :: rest => scconf_list_array_length rest + 1

/-- The function `scconf_list_strings_length`: the loop stops at the first
node whose `data` is null. -/
def scconf_list_strings_length : scconf_list → Nat
  | some d :: rest => d.length + 1 + scconf_list_strings_length rest
  | _ => 0

/-- The call `strcat(buf, src)` on a zeroed array of `cap` bytes holding the
string `buf`: the `src.length + 1` bytes written have to lie inside the array. -/
def strcat (cap : Nat) (buf src : CStr) : Except Fault CStr :=
  if buf.length + src.length + 1 ≤ cap then .ok (buf ++ src) else .error .undefined

/-- The `while` loop of `scconf_list_strdup`. -/
def strdup_loop (cap : Nat) (filler : Option CStr) : scconf_list → CStr → Except Fault CStr
  | some d :: rest, buf =>
    match strcat cap buf d with
    | .error f => .error f
    | .ok buf1 =>
      match filler with
      | none => strdup_loop cap filler rest buf1
      | some fl =>
        match strcat cap buf1 fl with
        | .error f => .error f
        | .ok buf2 => strdup_loop cap filler rest buf2
  | _, buf => .ok buf

/-- The function `scconf_list_strdup`: `none` is the null pointer, `some s` a
buffer holding the string `s`. The final write goes to the index
`strlen(buf) - strlen(filler)`, a `size_t`, and has to lie inside the buffer. -/
def scconf_list_strdup (list : scconf_list) (filler : Option CStr) :
    Except Fault (Option CStr) :=
  match list with
  | [] => .ok none
  | _ :: _ =>
    let len := scconf_list_strings_length list +
      (match filler with
       | none => 0
       | some fl => scconf_list_array_length list * (fl.length + 1))
    match strdup_loop len filler list [] with
    | .error f => .error f
    | .ok buf =>
      match filler with
      | none => .ok (some buf)
      | some fl =>
        if fl.length ≤ buf.length ∧ buf.length - fl.length < len then
          .ok (some (buf.take (buf.length - fl.length)))
        else .error .undefined

/-! ## The decoder -/

/-- One event of a run: `parse_type` was entered for the entry `name` with a
candidate block at a depth, or the callback of the entry `name` returned
`status` for the block and depth it was called with. -/
inductive Event where
  | decoding (name : CStr) (block : scconf_block) (depth : Nat)
  | callback (name : CStr) (block : scconf_block) (depth : Nat) (status : Int)

/-- What a decoding function leaves: the status it returns, the memory after
the call, and the events of the call in the order they happened. -/
structure Out (σ : Type) where
  status : Int
  mem : σ
  trace : List Event

/-- The result of a decoding function, or a fault. -/
abbrev Result (σ : Type) := Except Fault (Out σ)

/-- The loop of the `SCCONF_LIST` case that copies a list node by node. -/
def list_copy_loop : scconf_list → scconf_list → scconf_list
  | [], dest => dest
  | d :: rest, dest => list_copy_loop rest (scconf_list_add dest d)

/-- The end of `parse_type`: a nonzero `r` is returned as it is, otherwise the
flag `SCCONF_PRESENT` is set and 0 is returned. -/
def parse_type_end (name : CStr) (type : scconf_type) (arg : Option Nat) (flags : Flags)
    (r : Int) (parm : Parm) (trace : List Event) : Out scconf_entry :=
  if r ≠ 0 then ⟨r, .mk name type parm arg flags, trace⟩
  else ⟨0, .mk name type parm arg { flags with PRESENT := true }, trace⟩

/-- The function `parse_type`, the recursive call of `parse_entries` being the
argument `pe`. A `parm` that does not point to what the type tag asks for is
undefined behaviour. -/
def parse_type (pe : scconf_block → List scconf_entry → Nat → Result (List scconf_entry))
    (_config : scconf_context) (block : scconf_block) (entry : scconf_entry) (depth : Nat) :
    Result scconf_entry :=
  match entry with
  | .mk name type parm arg flags =>
    let ev := Event.decoding name block depth
    match type with
    | .CALLBACK =>
      match parm with
      | .null => .ok (parse_type_end name type arg flags 0 parm [ev])
      | .func f =>
        let r := f block name depth
        .ok (parse_type_end name type arg flags r parm [ev, .callback name block depth r])
      | _ => .error .undefined
    | .BLOCK =>
      match parm with
      | .null => .ok (parse_type_end name type arg flags 0 parm [ev])
      | .entries sub =>
        match pe block sub (depth + 1) with
        | .error f => .error f
        | .ok o => .ok (parse_type_end name type arg flags o.status (.entries o.mem) (ev :: o.trace))
      | _ => .error .undefined
    | .LIST =>
      match scconf_find_list (some block) name with
      | [] => .ok (parse_type_end name type arg flags 1 parm [ev])
      | v :: vs =>
        match parm with
        | .null =>
          if flags.VERBOSE then
            match scconf_list_strdup (v :: vs) (some [44, 32]) with
            | .error f => .error f
            | .ok _ => .ok (parse_type_end name type arg flags 0 parm [ev])
          else .ok (parse_type_end name type arg flags 0 parm [ev])
        | .listp _ =>
          if flags.ALLOC then
            -- the copying loop leaves `val` null, so the verbose line is built from the null list
            .ok (parse_type_end name type arg flags 0 (.listp (list_copy_loop (v :: vs) [])) [ev])
          else if flags.VERBOSE then
            match scconf_list_strdup (v :: vs) (some [44, 32]) with
            | .error f => .error f
            | .ok _ => .ok (parse_type_end name type arg flags 0 (.listp (v :: vs)) [ev])
          else .ok (parse_type_end name type arg flags 0 (.listp (v :: vs)) [ev])
        | _ => .error .undefined
    | .BOOLEAN =>
      match scconf_get_bool (some block) name 0 with
      | .error f => .error f
      | .ok val =>
        match parm with
        | .null => .ok (parse_type_end name type arg flags 0 parm [ev])
        | .intp _ => .ok (parse_type_end name type arg flags 0 (.intp val) [ev])
        | _ => .error .undefined
    | .INTEGER =>
      match scconf_get_int (some block) name 42 with
      | .error f => .error f
      | .ok val =>
        match parm with
        | .null => .ok (parse_type_end name type arg flags 0 parm [ev])
        | .intp _ => .ok (parse_type_end name type arg flags 0 (.intp val) [ev])
        | _ => .error .undefined
    | .STRING =>
      match scconf_get_str (some block) name none with
      | none => .ok (parse_type_end name type arg flags 1 parm [ev])
      | some [] => .ok (parse_type_end name type arg flags 1 parm [ev])
      | some (c :: cs) =>
        let val := c :: cs
        let vallen := val.length
        match parm with
        | .null => .ok (parse_type_end name type arg flags 0 parm [ev])
        | .strp _ =>
          if flags.ALLOC then
            -- malloc(vallen + 1), memset to 0, memcpy of vallen bytes
            .ok (parse_type_end name type (arg.map (fun _ => vallen)) flags 0
              (.strp (some (val ++ [0]))) [ev])
          else .error .undefined
        | .buf bytes =>
          if flags.ALLOC then .error .undefined
          else if vallen ≤ bytes.length then
            .ok (parse_type_end name type arg flags 0 (.buf (val ++ bytes.drop vallen)) [ev])
          else .error .undefined
        | _ => .error .undefined
    | .other _ => .ok (parse_type_end name type arg flags 0 parm [ev])

/-- The function `getblocks`: `none` is the null pointer, `some bs` the array
holding the blocks `bs` followed by the terminating null pointer. -/
def getblocks (config : scconf_context) (block : scconf_block) (entry : scconf_entry) :
    Except Fault (Option (List scconf_block)) :=
  match scconf_find_blocks config (some block) (some entry.name) none with
  | .error f => .error f
  | .ok (some (b :: bs)) => .ok (some (b :: bs))
  | .ok _ =>
    match scconf_find_list (some block) entry.name with
    | [] => .ok none
    | _ :: _ => .ok (some [block])

/-- The inner loop of `parse_entries` over the array `blocks`, the call of
`parse_type` being the argument `pt`. -/
def parse_blocks (pt : scconf_block → scconf_entry → Result scconf_entry) :
    List scconf_block → scconf_entry → Result scconf_entry
  | [], e => .ok ⟨0, e, []⟩
  | b :: bs, e =>
    match pt b e with
    | .error f => .error f
    | .ok o =>
      if o.status ≠ 0 then .ok o
      else if ¬ o.mem.flags.ALL_BLOCKS then .ok o
      else
        match parse_blocks pt bs o.mem with
        | .error f => .error f
        | .ok o2 => .ok ⟨o2.status, o2.mem, o.trace ++ o2.trace⟩

/-- The outer loop of `parse_entries` over the entry array. -/
def parse_entries_loop (pt : scconf_block → scconf_entry → Result scconf_entry)
    (config : scconf_context) (block : scconf_block) :
    List scconf_entry → Result (List scconf_entry)
  | [] => .ok ⟨0, [], []⟩
  | e :: rest =>
    match getblocks config block e with
    | .error f => .error f
    | .ok none =>
      if ¬ e.flags.MANDATORY then
        match parse_entries_loop pt config block rest with
        | .error f => .error f
        | .ok o => .ok ⟨o.status, e :: o.mem, o.trace⟩
      else .ok ⟨1, e :: rest, []⟩
    | .ok (some blocks) =>
      match parse_blocks pt blocks e with
      | .error f => .error f
      | .ok o =>
        if o.status ≠ 0 then .ok ⟨o.status, o.mem :: rest, o.trace⟩
        else
          match parse_entries_loop pt config block rest with
          | .error f => .error f
          | .ok o2 => .ok ⟨o2.status, o.mem :: o2.mem, o.trace ++ o2.trace⟩

/-- The function `parse_entries`. The first argument bounds the number of
nested calls still allowed; `scconf_parse_entries` starts with a bound no run
can reach. -/
def parse_entries : Nat → scconf_context → scconf_block → List scconf_entry → Nat →
    Result (List scconf_entry)
  | 0, _, _, _, _ => .error .fuel
  | fuel + 1, config, block, entry, depth =>
    parse_entries_loop (fun b e => parse_type (parse_entries fuel config) config b e depth)
      config block entry

mutual
/-- The number of entry arrays nested below a `parm`. -/
def Parm.nesting : Parm → Nat
  | .entries sub => entries_nesting sub + 1
  | _ => 0
/-- The number of entry arrays nested below an entry. -/
def scconf_entry.nesting : scconf_entry → Nat
  | .mk _ _ parm _ _ => parm.nesting
/-- The number of entry arrays nested below the entries of an array. -/
def entries_nesting : List scconf_entry → Nat
  | [] => 0
  | e :: rest => max e.nesting (entries_nesting rest)
end

/-- The function `scconf_parse_entries`; a null `entry` is `none`, and so is a
null `block`. -/
def scconf_parse_entries (config : scconf_context) (block : Option scconf_block)
    (entry : Option (List scconf_entry)) : Result (List scconf_entry) :=
  match entry with
  | none => .ok ⟨1, [], []⟩
  | some es =>
    let block := match block with
      | none => config.root
      | some b => b
    parse_entries (entries_nesting es + 1) config block es 0

/-! ## Notions used to state the properties -/

/-- The run of `parse_entries` with the budget `scconf_parse_entries` gives it. -/
def decode (config : scconf_context) (block : scconf_block) (entry : List scconf_entry)
    (depth : Nat) : Result (List scconf_entry) :=
  parse_entries (entries_nesting entry + 1) config block entry depth

/-- The call of `parse_type` made by `parse_entries` at a depth. -/
def decode_type (config : scconf_context) (depth : Nat) (block : scconf_block)
    (entry : scconf_entry) : Result scconf_entry :=
  parse_type (decode config) config block entry depth

/-- Two runs give the same result, which is not a used-up budget, and a
returned memory has the size `n0`. -/
def Agree {σ : Type} (size : σ → Nat) (x y : Result σ) (n0 : Nat) : Prop :=
  x = y ∧ x ≠ .error .fuel ∧ ∀ o, x = .ok o → size o.mem = n0

/-- The child blocks of a block whose item key is `name`, letter case aside,
in document order. -/
def child_blocks (name : CStr) (items : List scconf_item) : List scconf_block :=
  items.filterMap (fun it =>
    match it with
    | .block k b => if strcasecmp name k = 0 then some b else none
    | _ => none)

/-- The block a call of `scconf_parse_entries` starts at: the root of the tree
when the `block` argument is null. -/
def start_block (config : scconf_context) (block : Option scconf_block) : scconf_block :=
  match block with
  | none => config.root
  | some b => b

/-- The candidate blocks of an entry in a block: the blocks of the array
`getblocks` returns, none when it returns the null pointer. -/
def candidates (config : scconf_context) (block : scconf_block) (e : scconf_entry) :
    List scconf_block :=
  match getblocks config block e with
  | .ok (some bs) => bs
  | _ => []

/-- The fault a run ends with, if it ends with one. -/
def fault_of {σ : Type} : Result σ → Option Fault
  | .ok _ => none
  | .error f => some f

/-- The content of the `int` variable the `parm` of an entry points to. -/
def int_slot (e : scconf_entry) : Option Int :=
  match e.parm with
  | .intp v => some v
  | _ => none

/-- A text that starts with no integer for `atoi`: it is empty, or its first
byte is neither white space, nor a sign, nor a digit. -/
def no_leading_integer (v : CStr) : Bool :=
  match v with
  | [] => true
  | c :: _ => !isspace c && c != 45 && c != 43 && !isdigit c

/-- One round of the outer loop of `parse_entries`, for one entry: the entry is
skipped or reported missing when it has no candidate, and decoded otherwise. -/
def entry_step (pt : scconf_block → scconf_entry → Result scconf_entry)
    (config : scconf_context) (block : scconf_block) (e : scconf_entry) : Result scconf_entry :=
  match candidates config block e with
  | [] => .ok ⟨if e.flags.MANDATORY then 1 else 0, e, []⟩
  | c :: cs => parse_blocks pt (c :: cs) e

/-- The round of the outer loop for the entry `e` of a schema returned `o1` with
status 0: the entry was decoded and has the flag Present when it had a
candidate, and was skipped, left as it was and without event, when it had
none. -/
def round_ok (pt : scconf_block → scconf_entry → Result scconf_entry)
    (config : scconf_context) (block : scconf_block) (e : scconf_entry)
    (o1 : Out scconf_entry) : Prop :=
  entry_step pt config block e = .ok o1 ∧ o1.status = 0 ∧
    (candidates config block e ≠ [] → o1.mem.flags.PRESENT = true) ∧
    (candidates config block e = [] → o1.mem = e ∧ o1.trace = [])

/-- The type decode `pt`, applied to the blocks of a list one after the other,
each call on the entry as the call before left it, returns 0 every time and
leaves the entry `e1`. -/
def chain_ok (pt : scconf_block → scconf_entry → Result scconf_entry) :
    List scconf_block → scconf_entry → scconf_entry → Prop
  | [], e, e1 => e1 = e
  | b :: bs, e, e1 => ∃ o1, pt b e = .ok o1 ∧ o1.status = 0 ∧ chain_ok pt bs o1.mem e1

/-- The depth an event happened at. -/
def Event.depth : Event → Nat
  | .decoding _ _ d => d
  | .callback _ _ d _ => d

/-- An event is a failure when a callback returned a nonzero status. -/
def Event.failing : Event → Bool
  | .decoding _ _ _ => false
  | .callback _ _ _ s => decide (s ≠ 0)

/-- The blocks `parse_type` was entered with at the depth `d`, in the order of
the calls. -/
def visits (d : Nat) (t : List Event) : List scconf_block :=
  t.filterMap (fun ev =>
    match ev with
    | .decoding _ b dd => if dd = d then some b else none
    | .callback _ _ _ _ => none)

/-- A trace without failure. -/
def quiet (t : List Event) : Prop := ∀ ev ∈ t, ev.failing = false

/-- The invariant of the traces of a run at the depth `d` that returns
`status`: no event is less deep than `d`, and a failure is the last event of
the trace, with the status of the run. -/
def trace_ok (d : Nat) (status : Int) (t : List Event) : Prop :=
  (∀ ev ∈ t, d ≤ ev.depth) ∧
    (quiet t ∨ ∃ pre n b dd, t = pre ++ [.callback n b dd status] ∧ quiet pre ∧ status ≠ 0)

/-- The value list of the first Value item of a block whose key is `name`,
letter case aside; `none` when the block has no such item. -/
def first_value (name : CStr) (items : List scconf_item) : Option scconf_list :=
  items.findSome? (fun it =>
    match it with
    | .value k l => if strcasecmp name k = 0 then some l else none
    | _ => none)

mutual
/-- The part of a `parm` that decoding leaves as it is: what the pointer points
to (a callback, a nested entry array and the static part of its entries, the
size of a caller buffer), the content of the cell being erased. -/
def Parm.static : Parm → Parm
  | .null => .null
  | .func f => .func f
  | .entries sub => .entries (static_entries sub)
  | .intp _ => .intp 0
  | .listp _ => .listp []
  | .buf bytes => .buf (List.replicate bytes.length 0)
  | .strp _ => .strp none
/-- The static part of an entry: its name, its type, the static part of its
`parm`, whether `arg` is null, and its flags other than Present. -/
def scconf_entry.static : scconf_entry → scconf_entry
  | .mk name type parm arg flags =>
    .mk name type parm.static (arg.map (fun _ => 0)) { flags with PRESENT := false }
/-- The static parts of the entries of an array. -/
def static_entries : List scconf_entry → List scconf_entry
  | [] => []
  | e :: rest => e.static :: static_entries rest
end

/-- The entry `e`, decoded with status 0 in the block `block`, is `e1`
afterwards: with Present set and its other flags unchanged when it had a
candidate, and as it was when it had none. -/
def present_frame (config : scconf_context) (block : scconf_block)
    (e e1 : scconf_entry) : Prop :=
  (candidates config block e ≠ [] → e1.flags = { e.flags with PRESENT := true }) ∧
    (candidates config block e = [] → e1 = e)

/-- The notion `Reach config k b S c name f`: the decoder, run on the schema
`S` at the block `b`, can reach through `k` nested NestedSchema entries a
Callback entry named `name` whose callback is `f`, matched in the candidate
block `c`. With `k = 0` the entry stands in `S` itself and `c` is one of its
candidates in `b`; with `k + 1` it is reached with `k` from the nested schema
of a NestedSchema entry of `S`, decoded at one of the candidates of that entry. -/
inductive Reach (config : scconf_context) :
    Nat → scconf_block → List scconf_entry → scconf_block → CStr → callback_t → Prop where
  | here (b : scconf_block) (S : List scconf_entry) (c : scconf_block) (name : CStr)
      (f : callback_t) (arg : Option Nat) (flags : Flags) :
      scconf_entry.mk name .CALLBACK (.func f) arg flags ∈ S →
      c ∈ candidates config b (.mk name .CALLBACK (.func f) arg flags) →
      Reach config 0 b S c name f
  | nested (k : Nat) (b : scconf_block) (S sub : List scconf_entry) (c1 c : scconf_block)
      (name : CStr) (f : callback_t) (ename : CStr) (arg : Option Nat) (flags : Flags) :
      scconf_entry.mk ename .BLOCK (.entries sub) arg flags ∈ S →
      c1 ∈ candidates config b (.mk ename .BLOCK (.entries sub) arg flags) →
      Reach config k c1 sub c name f →
      Reach config (k + 1) b S c name f

/-- What an event of a call of `parse_type` on the entry `e` with the block `c`
at the depth `d` is, when it is the return of a callback: the call of the
callback of `e` itself with `c` and `d`, or a call made by the nested run of the
schema of `e` at the depth `d + 1`. -/
def event_of_entry (config : scconf_context) (c : scconf_block) (e : scconf_entry) (d : Nat)
    (ev : Event) : Prop :=
  ∀ n c2 dd s, ev = .callback n c2 dd s →
    (∃ f arg flags, e = .mk n .CALLBACK (.func f) arg flags ∧ c2 = c ∧ dd = d ∧
        s = f c n d) ∨
    (∃ ename sub arg flags k f, e = .mk ename .BLOCK (.entries sub) arg flags ∧
        Reach config k c sub c2 n f ∧ dd = d + 1 + k ∧ s = f c2 n dd)

/-- What an event of a run of the schema `S` at the block `b` and the depth `d`
is, when it is the return of a callback: the call of a callback reached through
some number `k` of nested entries, with the candidate block it was matched in
and the depth `d + k`. -/
def event_of_schema (config : scconf_context) (b : scconf_block) (S : List scconf_entry)
    (d : Nat) (ev : Event) : Prop :=
  ∀ n c dd s, ev = .callback n c dd s →
    ∃ k f, Reach config k b S c n f ∧ dd = d + k ∧ s = f c n dd

/-- The candidates Step 2 of the spec decodes: the first candidate, and every
remaining candidate in order when AllMatches is set. -/
def visited (e : scconf_entry) (cands : List scconf_block) : List scconf_block :=
  if e.flags.ALL_BLOCKS then cands else cands.take 1

mutual
/-- The nested decode of the spec for an output target: the decode of the
nested Schema Entry array it points to, nothing when it points to none. -/
def spec_nested (config : scconf_context) : Parm → scconf_block → Nat → Prop
  | .entries sub, c, d => spec_decode_succeeds config sub c d
  | _, _, _ => True
/-- The value of an entry converts without error under its declared type, in
the words of the type table of the spec (Step 3), for the candidate block `c`
at the depth `d`:
* Callback: the status the supplied callback returns is the result of the
  entry, so the callback returns 0;
* NestedSchema: the decoder, run against the candidate block at depth `d + 1`,
  succeeds;
* List: there is a Value list named like the entry to fetch from the candidate;
* Boolean and Integer: no value fails (absence is false, unparsable text is
  not an error);
* String: the value is required and not empty;
* any unrecognized declared type fails with the "invalid type" condition. -/
def spec_converts (config : scconf_context) : scconf_entry → scconf_block → Nat → Prop
  | .mk name type parm _ _, c, d =>
    match type with
    | .CALLBACK =>
      match parm with
      | .func f => f c name d = 0
      | _ => True
    | .BLOCK => spec_nested config parm c (d + 1)
    | .LIST => ∃ v vs, first_value name c.items = some (v :: vs)
    | .BOOLEAN => True
    | .INTEGER => True
    | .STRING => ∃ ch cs rest, first_value name c.items = some (some (ch :: cs) :: rest)
    | .other _ => False
/-- The decode of a schema at the block `b` succeeds, in the words of the spec
(Steps 2 and 3 and its testable property): every Mandatory entry has at least
one candidate, and the value of every entry converts without error for each of
the candidates the entry decodes. -/
def spec_decode_succeeds (config : scconf_context) :
    List scconf_entry → scconf_block → Nat → Prop
  | [], _, _ => True
  | e :: rest, b, d =>
    (e.flags.MANDATORY = true → candidates config b e ≠ []) ∧
      (∀ c ∈ visited e (candidates config b e), spec_converts config e c d) ∧
      spec_decode_succeeds config rest b d
end

mutual
/-- Every entry of the array an output target points to, if it points to one,
is recognized. -/
def Parm.recognized : Parm → Prop
  | .entries sub => recognized_entries sub
  | _ => True
/-- The declared type of the entry is one of the six of the spec, and so are
the declared types of the entries nested below it. -/
def scconf_entry.recognized : scconf_entry → Prop
  | .mk _ type parm _ _ => (∀ tag, type ≠ .other tag) ∧ parm.recognized
/-- Every entry of a schema is recognized. -/
def recognized_entries : List scconf_entry → Prop
  | [] => True
  | e :: rest => e.recognized ∧ recognized_entries rest
end

/-! ## The lottery test program (`src/tests/lottery.c`) -/

/-- The array `alkiot` as `main` fills it before a row is drawn: 1 to 39. -/
def alkiot_init : List Nat := (List.range 39).map (fun i => i + 1)

/-- The `for` loop of `main` that draws the numbers of a row, with `n` rounds
left, the counter `i`, the array `alkiot` and the variable `jaljella`; the
result is the list of the numbers `num` in the order they are printed. The
challenge `buf` is the list of its bytes; reading `alkiot[lot]` outside the 39
elements of the array is undefined behaviour. -/
def lottery_loop (buf : List Nat) : Nat → Nat → List Nat → Nat → Except Fault (List Nat)
  | 0, _, _, _ => .ok []
  | n + 1, i, alkiot, jaljella =>
    -- unsigned short s = buf[2*i] + (buf[2*i+1] << 8);
    let s := (buf.getD (2 * i) 0 + buf.getD (2 * i + 1) 0 * 256) % 65536
    let lot := s % (jaljella + 1)
    if lot < 39 then
      let num := alkiot.getD lot 0
      let alkiot1 := alkiot.set lot (alkiot.getD (jaljella - 1) 0)
      match lottery_loop buf n (i + 1) alkiot1 (jaljella - 1) with
      | .error f => .error f
      | .ok nums => .ok (num :: nums)
    else .error .undefined

/-- The seven draws `main` makes from one challenge, when `sc_get_challenge`
returned 0. -/
def lottery_row (buf : List Nat) : Except Fault (List Nat) :=
  lottery_loop buf 7 0 alkiot_init 39

/-! ## Trees and schemas the properties are evaluated on -/

/-- The flags word 0. -/
def no_flags : Flags := ⟨false, false, false, false, false⟩

/-- The tree of the text `num = abc;`. -/
def tree_num_abc : scconf_context :=
  ⟨.mk [] [.value [110, 117, 109] [some [97, 98, 99]]], false⟩

/-- An Integer entry named `num` whose output slot holds 7 before the call. -/
def entry_num : scconf_entry := .mk [110, 117, 109] .INTEGER (.intp 7) none no_flags

/-- An entry named `num` with the type tag 99, which is none of the six. -/
def entry_num_99 : scconf_entry := .mk [110, 117, 109] (.other 99) (.intp 7) none no_flags

/-- A Mandatory String entry named `str`. -/
def entry_str_mandatory : scconf_entry :=
  .mk [115, 116, 114] .STRING (.strp none) none { no_flags with MANDATORY := true }

/-- The block `group a { x = 1; }`, as the value of its item. -/
def block_a : scconf_block := .mk [some [97]] [.value [120] [some [49]]]

/-- The block `group b { x = 2; }`, as the value of its item. -/
def block_b : scconf_block := .mk [some [98]] [.value [120] [some [50]]]

/-- The block `group c { x = 3; }`, as the value of its item. -/
def block_c : scconf_block := .mk [some [99]] [.value [120] [some [51]]]

/-- The tree with the three blocks `group a`, `group b`, `group c`, followed by
the item `num = abc;`. -/
def tree_groups : scconf_context :=
  ⟨.mk [] [.block [103, 114, 111, 117, 112] block_a, .block [103, 114, 111, 117, 112] block_b,
      .block [103, 114, 111, 117, 112] block_c, .value [110, 117, 109] [some [97, 98, 99]]],
    false⟩

/-- A Callback entry named `group` with AllMatches set whose callback returns 1. -/
def entry_group_failing : scconf_entry :=
  .mk [103, 114, 111, 117, 112] .CALLBACK (.func (fun _ _ _ => 1)) none
    { no_flags with ALL_BLOCKS := true }

/-- A NestedSchema entry named `group` whose nested schema is one Callback
entry named `x` with a callback that returns 5. -/
def entry_group_nested : scconf_entry :=
  .mk [103, 114, 111, 117, 112] .BLOCK
    (.entries [.mk [120] .CALLBACK (.func (fun _ _ _ => 5)) none no_flags]) none no_flags

/-- A Callback entry named `group` with AllMatches set whose callback returns 0. -/
def entry_group_ok : scconf_entry :=
  .mk [103, 114, 111, 117, 112] .CALLBACK (.func (fun _ _ _ => 0)) none
    { no_flags with ALL_BLOCKS := true }

/-- The tree of the text `num = ;`: a Value item without value. -/
def tree_num_empty : scconf_context := ⟨.mk [] [.value [110, 117, 109] []], false⟩

/-- The tree of the text `str = hello; empty = "";`. -/
def tree_str : scconf_context :=
  ⟨.mk [] [.value [115, 116, 114] [some [104, 101, 108, 108, 111]],
      .value [101, 109, 112, 116, 121] [some []]], false⟩

/-- A List entry named `str` with OwnedCopy set whose slot holds the null list. -/
def entry_str_list : scconf_entry :=
  .mk [115, 116, 114] .LIST (.listp []) none { no_flags with ALLOC := true }

/-- The tree of the text `group { }`: a child block without name token. -/
def tree_unnamed : scconf_context :=
  ⟨.mk [] [.block [103, 114, 111, 117, 112] (.mk [] [])], false⟩

/-- The tree of the text `num { num = ; }`: a child block named `num` that
holds a Value item `num` without value. -/
def tree_num_block_empty : scconf_context :=
  ⟨.mk [] [.block [110, 117, 109] (.mk [] [.value [110, 117, 109] []])], false⟩

/-- A String entry named `str` with Verbose set, not Mandatory. -/
def entry_str_optional : scconf_entry :=
  .mk [115, 116, 114] .STRING (.strp none) none { no_flags with VERBOSE := true }

/-! ## Faults of the helper functions are undefined behaviour, never the budget -/

theorem atoi_fault (s : CStr) (f : Fault) (h : atoi s = .error f) : f = .undefined := by
  unfold atoi at h
  simp only at h
  split at h
  · cases h
  · cases h
    rfl

theorem scconf_get_int_fault (block : Option scconf_block) (option : CStr) (dflt : Int)
    (f : Fault) (h : scconf_get_int block option dflt = .error f) : f = .undefined := by
  unfold scconf_get_int at h
  split at h
  · cases h
  · cases h
    rfl
  · exact atoi_fault _ _ h

theorem scconf_get_bool_fault (block : Option scconf_block) (option : CStr) (dflt : Int)
    (f : Fault) (h : scconf_get_bool block option dflt = .error f) : f = .undefined := by
  unfold scconf_get_bool at h
  split at h
  · cases h
  · cases h
    rfl
  · cases h

theorem strcat_fault (cap : Nat) (buf src : CStr) (f : Fault)
    (h : strcat cap buf src = .error f) : f = .undefined := by
  unfold strcat at h
  split at h
  · cases h
  · cases h
    rfl

theorem strdup_loop_fault (cap : Nat) (filler : Option CStr) (list : scconf_list) (buf : CStr)
    (f : Fault) (h : strdup_loop cap filler list buf = .error f) : f = .undefined := by
  induction list generalizing buf with
  | nil => simp [strdup_loop] at h
  | cons d rest ih =>
    cases d with
    | none => simp [strdup_loop] at h
    | some d =>
      simp only [strdup_loop] at h
      split at h
      · rename_i f1 hf1
        cases h
        exact strcat_fault _ _ _ _ hf1
      · split at h
        · exact ih _ h
        · split at h
          · rename_i f1 hf1
            cases h
            exact strcat_fault _ _ _ _ hf1
          · exact ih _ h

theorem scconf_list_strdup_fault (list : scconf_list) (filler : Option CStr) (f : Fault)
    (h : scconf_list_strdup list filler = .error f) : f = .undefined := by
  unfold scconf_list_strdup at h
  split at h
  · cases h
  · simp only at h
    split at h
    · rename_i f1 hf1
      cases h
      exact strdup_loop_fault _ _ _ _ _ hf1
    · split at h
      · cases h
      · split at h
        · cases h
        · cases h
          rfl

/-! ## Candidate resolution in closed form -/

theorem find_blocks_loop_no_key (name : CStr) (items : List scconf_item) :
    find_blocks_loop name none items = .ok (child_blocks name items) := by
  induction items with
  | nil => rfl
  | cons it rest ih =>
    cases it with
    | comment k t => simpa [find_blocks_loop, child_blocks] using ih
    | value k l => simpa [find_blocks_loop, child_blocks] using ih
    | block k b =>
      by_cases hk : strcasecmp name k = 0
      · simp [find_blocks_loop, child_blocks, hk, ih, Except.map]
      · simpa [find_blocks_loop, child_blocks, hk] using ih

theorem getblocks_eq (config : scconf_context) (block : scconf_block) (entry : scconf_entry) :
    getblocks config block entry = .ok
      (match child_blocks entry.name block.items with
       | b :: bs => some (b :: bs)
       | [] =>
         match find_list_loop entry.name block.items with
         | [] => none
         | _ :: _ => some [block]) := by
  unfold getblocks scconf_find_blocks scconf_find_list
  simp only [find_blocks_loop_no_key, Except.map]
  cases child_blocks entry.name block.items with
  | nil =>
    simp only
    cases find_list_loop entry.name block.items <;> rfl
  | cons b bs => rfl

/-! ## The recursion budget is never used up -/

theorem nesting_mk (name : CStr) (type : scconf_type) (parm : Parm) (arg : Option Nat)
    (flags : Flags) : (scconf_entry.mk name type parm arg flags).nesting = parm.nesting := by
  simp [scconf_entry.nesting]

theorem entries_nesting_cons (e : scconf_entry) (rest : List scconf_entry) :
    entries_nesting (e :: rest) = max e.nesting (entries_nesting rest) := by
  simp [entries_nesting]

theorem parse_type_end_nesting (name : CStr) (type : scconf_type) (arg : Option Nat)
    (flags : Flags) (r : Int) (parm : Parm) (t : List Event) :
    (parse_type_end name type arg flags r parm t).mem.nesting = parm.nesting := by
  unfold parse_type_end
  split <;> simp [scconf_entry.nesting]

theorem agree_ok {σ : Type} (size : σ → Nat) (o : Out σ) (n0 : Nat) (h : size o.mem = n0) :
    Agree size (.ok o) (.ok o) n0 := by
  refine ⟨rfl, by simp, ?_⟩
  intro o2 ho
  cases ho
  exact h

theorem agree_undefined {σ : Type} (size : σ → Nat) (n0 : Nat) :
    Agree size (.error .undefined) (.error .undefined) n0 := by
  refine ⟨rfl, by simp, ?_⟩
  intro o ho
  cases ho

theorem agree_error {σ : Type} (size : σ → Nat) (f : Fault) (n0 : Nat) (hf : f ≠ .fuel) :
    Agree size (.error f) (.error f) n0 := by
  refine ⟨rfl, ?_, ?_⟩
  · intro h
    cases h
    exact hf rfl
  · intro o ho
    cases ho

theorem parse_type_agree
    (pe pe2 : scconf_block → List scconf_entry → Nat → Result (List scconf_entry)) (h : Nat)
    (hpe : ∀ b sub d, entries_nesting sub < h →
      Agree entries_nesting (pe b sub d) (pe2 b sub d) (entries_nesting sub))
    (config : scconf_context) (block : scconf_block) (e : scconf_entry) (depth : Nat)
    (he : e.nesting ≤ h) :
    Agree scconf_entry.nesting (parse_type pe config block e depth)
      (parse_type pe2 config block e depth) e.nesting := by
  obtain ⟨name, type, parm, arg, flags⟩ := e
  cases type
  case BLOCK =>
    cases parm
    case entries sub =>
      have hs : entries_nesting sub < h := by
        simp [scconf_entry.nesting, Parm.nesting] at he
        omega
      obtain ⟨h1, h2, h3⟩ := hpe block sub (depth + 1) hs
      simp only [parse_type, ← h1]
      cases hx : pe block sub (depth + 1) with
      | error f =>
        apply agree_error
        intro hf
        apply h2
        rw [hx, hf]
      | ok o =>
        apply agree_ok
        rw [parse_type_end_nesting]
        simp [scconf_entry.nesting, Parm.nesting, h3 o hx]
    all_goals first
      | exact agree_undefined _ _
      | exact agree_ok _ _ _ (parse_type_end_nesting _ _ _ _ _ _ _)
  case CALLBACK =>
    cases parm <;> first
      | exact agree_undefined _ _
      | exact agree_ok _ _ _ (parse_type_end_nesting _ _ _ _ _ _ _)
  case other tag => exact agree_ok _ _ _ (parse_type_end_nesting _ _ _ _ _ _ _)
  case LIST =>
    simp only [parse_type]
    split
    · exact agree_ok _ _ _ (parse_type_end_nesting _ _ _ _ _ _ _)
    · cases parm <;> simp only
      case null =>
        split
        · split
          · rename_i f hf
            rw [scconf_list_strdup_fault _ _ _ hf]
            exact agree_undefined _ _
          · exact agree_ok _ _ _ (parse_type_end_nesting _ _ _ _ _ _ _)
        · exact agree_ok _ _ _ (parse_type_end_nesting _ _ _ _ _ _ _)
      case listp v0 =>
        split
        · exact agree_ok _ _ _ (parse_type_end_nesting _ _ _ _ _ _ _)
        · split
          · split
            · rename_i f hf
              rw [scconf_list_strdup_fault _ _ _ hf]
              exact agree_undefined _ _
            · exact agree_ok _ _ _ (parse_type_end_nesting _ _ _ _ _ _ _)
          · exact agree_ok _ _ _ (parse_type_end_nesting _ _ _ _ _ _ _)
      all_goals exact agree_undefined _ _
  case BOOLEAN =>
    simp only [parse_type]
    split
    · rename_i f hf
      rw [scconf_get_bool_fault _ _ _ _ hf]
      exact agree_undefined _ _
    · cases parm <;> first
        | exact agree_undefined _ _
        | exact agree_ok _ _ _ (parse_type_end_nesting _ _ _ _ _ _ _)
  case INTEGER =>
    simp only [parse_type]
    split
    · rename_i f hf
      rw [scconf_get_int_fault _ _ _ _ hf]
      exact agree_undefined _ _
    · cases parm <;> first
        | exact agree_undefined _ _
        | exact agree_ok _ _ _ (parse_type_end_nesting _ _ _ _ _ _ _)
  case STRING =>
    simp only [parse_type]
    split
    · exact agree_ok _ _ _ (parse_type_end_nesting _ _ _ _ _ _ _)
    · exact agree_ok _ _ _ (parse_type_end_nesting _ _ _ _ _ _ _)
    · cases parm <;> simp only
      case strp p =>
        split
        · exact agree_ok _ _ _ (parse_type_end_nesting _ _ _ _ _ _ _)
        · exact agree_undefined _ _
      case buf bytes =>
        split
        · exact agree_undefined _ _
        · split
          · exact agree_ok _ _ _ (parse_type_end_nesting _ _ _ _ _ _ _)
          · exact agree_undefined _ _
      all_goals first
        | exact agree_undefined _ _
        | exact agree_ok _ _ _ (parse_type_end_nesting _ _ _ _ _ _ _)

theorem parse_blocks_agree (pt pt2 : scconf_block → scconf_entry → Result scconf_entry)
    (h : Nat)
    (hpt : ∀ b e, e.nesting ≤ h → Agree scconf_entry.nesting (pt b e) (pt2 b e) e.nesting)
    (blocks : List scconf_block) (e : scconf_entry) (he : e.nesting ≤ h) :
    Agree scconf_entry.nesting (parse_blocks pt blocks e) (parse_blocks pt2 blocks e)
      e.nesting := by
  induction blocks generalizing e with
  | nil => exact agree_ok _ _ _ rfl
  | cons b bs ih =>
    obtain ⟨h1, h2, h3⟩ := hpt b e he
    simp only [parse_blocks, ← h1]
    cases hx : pt b e with
    | error f =>
      apply agree_error
      intro hf
      apply h2
      rw [hx, hf]
    | ok o =>
      have hn : o.mem.nesting = e.nesting := h3 o hx
      simp only
      split
      · exact agree_ok _ _ _ hn
      · split
        · exact agree_ok _ _ _ hn
        · obtain ⟨i1, i2, i3⟩ := ih o.mem (by omega)
          rw [← i1]
          cases hy : parse_blocks pt bs o.mem with
          | error f =>
            apply agree_error
            intro hf
            apply i2
            rw [hy, hf]
          | ok o2 =>
            apply agree_ok
            simp only
            rw [i3 o2 hy, hn]

theorem parse_entries_loop_agree (pt pt2 : scconf_block → scconf_entry → Result scconf_entry)
    (h : Nat)
    (hpt : ∀ b e, e.nesting ≤ h → Agree scconf_entry.nesting (pt b e) (pt2 b e) e.nesting)
    (config : scconf_context) (block : scconf_block) (es : List scconf_entry)
    (hes : entries_nesting es ≤ h) :
    Agree entries_nesting (parse_entries_loop pt config block es)
      (parse_entries_loop pt2 config block es) (entries_nesting es) := by
  induction es with
  | nil => exact agree_ok _ _ _ rfl
  | cons e rest ih =>
    rw [entries_nesting_cons] at hes
    have he : e.nesting ≤ h := le_trans (le_max_left _ _) hes
    obtain ⟨i1, i2, i3⟩ := ih (le_trans (le_max_right _ _) hes)
    simp only [parse_entries_loop, getblocks_eq, ← i1]
    split
    · rename_i f hf
      cases hf
    · split
      · cases hx : parse_entries_loop pt config block rest with
        | error f =>
          apply agree_error
          intro hf
          apply i2
          rw [hx, hf]
        | ok o =>
          apply agree_ok
          simp [entries_nesting_cons, i3 o hx]
      · exact agree_ok _ _ _ rfl
    · rename_i blocks hb
      obtain ⟨j1, j2, j3⟩ := parse_blocks_agree pt pt2 h hpt blocks e he
      simp only [← j1]
      cases hy : parse_blocks pt blocks e with
      | error f =>
        apply agree_error
        intro hf
        apply j2
        rw [hy, hf]
      | ok o =>
        have hn : o.mem.nesting = e.nesting := j3 o hy
        simp only
        split
        · apply agree_ok
          simp [entries_nesting_cons, hn]
        · cases hx : parse_entries_loop pt config block rest with
          | error f =>
            apply agree_error
            intro hf
            apply i2
            rw [hx, hf]
          | ok o2 =>
            apply agree_ok
            simp [entries_nesting_cons, hn, i3 o2 hx]

theorem parse_entries_fuel (n : Nat) :
    ∀ (m : Nat) (config : scconf_context) (block : scconf_block) (es : List scconf_entry)
      (depth : Nat), entries_nesting es < n → n ≤ m →
      Agree entries_nesting (parse_entries n config block es depth)
        (parse_entries m config block es depth) (entries_nesting es) := by
  induction n with
  | zero => intro m config block es depth h; omega
  | succ n ih =>
    intro m config block es depth hes hm
    obtain ⟨m, rfl⟩ : ∃ k, m = k + 1 := ⟨m - 1, by omega⟩
    simp only [parse_entries]
    apply parse_entries_loop_agree _ _ n _ config block es (by omega)
    intro b e he
    apply parse_type_agree _ _ n _ config b e depth he
    intro b2 sub d hsub
    exact ih m config b2 sub d hsub (by omega)

/-- The run of `parse_entries` unfolds like the C function, with no budget. -/
theorem decode_eq (config : scconf_context) (block : scconf_block) (es : List scconf_entry)
    (depth : Nat) :
    decode config block es depth =
      parse_entries_loop (decode_type config depth) config block es := by
  unfold decode
  simp only [parse_entries]
  refine (parse_entries_loop_agree _ _ (entries_nesting es) ?_ config block es le_rfl).1
  intro b e he
  apply parse_type_agree _ _ (entries_nesting es) _ config b e depth he
  intro b2 sub d hsub
  obtain ⟨h1, h2, h3⟩ := parse_entries_fuel (entries_nesting sub + 1) (entries_nesting es)
    config b2 sub d (by omega) (by omega)
  refine ⟨h1.symm, ?_, ?_⟩
  · rw [← h1]
    exact h2
  · intro o ho
    rw [← h1] at ho
    exact h3 o ho

theorem decode_no_fuel (config : scconf_context) (block : scconf_block)
    (es : List scconf_entry) (depth : Nat) : decode config block es depth ≠ .error .fuel :=
  (parse_entries_fuel (entries_nesting es + 1) (entries_nesting es + 1) config block es depth
    (by omega) le_rfl).2.1

theorem scconf_parse_entries_some (config : scconf_context) (block : Option scconf_block)
    (es : List scconf_entry) :
    scconf_parse_entries config block (some es) =
      decode config (match block with
        | none => config.root
        | some b => b) es 0 := rfl

/-! ## When the outer loop returns 0 -/

theorem getblocks_none_or_cons (config : scconf_context) (block : scconf_block)
    (e : scconf_entry) :
    (getblocks config block e = .ok none ∧ candidates config block e = []) ∨
    ∃ c cs, getblocks config block e = .ok (some (c :: cs)) ∧
      candidates config block e = c :: cs := by
  unfold candidates
  rw [getblocks_eq]
  cases child_blocks e.name block.items with
  | nil =>
    cases find_list_loop e.name block.items with
    | nil => exact Or.inl ⟨rfl, rfl⟩
    | cons v vs => exact Or.inr ⟨block, [], rfl, rfl⟩
  | cons c cs => exact Or.inr ⟨c, cs, rfl, rfl⟩

theorem parse_entries_loop_success_iff
    (pt : scconf_block → scconf_entry → Result scconf_entry)
    (config : scconf_context) (block : scconf_block) (S : List scconf_entry) :
    (∃ o, parse_entries_loop pt config block S = .ok o ∧ o.status = 0) ↔
      ∀ e ∈ S, (e.flags.MANDATORY = true → candidates config block e ≠ []) ∧
        (candidates config block e ≠ [] →
          ∃ o, parse_blocks pt (candidates config block e) e = .ok o ∧ o.status = 0) := by
  induction S with
  | nil => simp [parse_entries_loop]
  | cons e rest ih =>
    simp only [List.forall_mem_cons, ← ih]
    rcases getblocks_none_or_cons config block e with ⟨hg, hc⟩ | ⟨c, cs, hg, hc⟩
    · simp only [parse_entries_loop, hg, hc]
      cases hm : e.flags.MANDATORY
      · cases hx : parse_entries_loop pt config block rest with
        | error f => simp
        | ok o => simp
      · simp
    · simp only [parse_entries_loop, hg, hc]
      cases hy : parse_blocks pt (c :: cs) e with
      | error f => simp
      | ok o =>
        by_cases hs : o.status = 0
        · cases hx : parse_entries_loop pt config block rest with
          | error f => simp [hs]
          | ok o2 => simp [hs]
        · simp [hs]

/-! ## C2: an Integer entry whose value is not a number -/

theorem atoi_digits_no_digit (acc : Nat) (c : Nat) (s : CStr) (h : isdigit c = false) :
    atoi_digits acc (c :: s) = acc := by
  simp [atoi_digits, h]

theorem atoi_no_leading_integer (v : CStr) (h : no_leading_integer v = true) :
    atoi v = .ok 0 := by
  cases v with
  | nil => rfl
  | cons c s =>
    simp only [no_leading_integer, Bool.and_eq_true, Bool.not_eq_true', bne_iff_ne, ne_eq] at h
    obtain ⟨⟨⟨h1, h2⟩, h3⟩, h4⟩ := h
    have hd : List.dropWhile isspace (c :: s) = c :: s := by
      simp [List.dropWhile, h1]
    unfold atoi
    simp only [hd]
    have hm : (match (c :: s : CStr) with
        | 45 :: u => - (atoi_digits 0 u : Int)
        | 43 :: u => (atoi_digits 0 u : Int)
        | _ => (atoi_digits 0 (c :: s) : Int)) = 0 := by
      split
      · rename_i u heq
        cases heq
        exact absurd rfl h2
      · rename_i u heq
        cases heq
        exact absurd rfl h3
      · simp [atoi_digits_no_digit, h4]
    rw [hm]
    simp

/-- C2, refuted as stated: for the tree `num = abc;` the Integer entry `num`
decodes with status 0 and its slot receives 0, not 42. -/
theorem C2_counterexample :
    ∃ o, scconf_parse_entries tree_num_abc none (some [entry_num]) = .ok o ∧
      o.status = 0 ∧ o.mem.map int_slot = [some 0] ∧ o.mem.map int_slot ≠ [some 42] :=
  ⟨_, rfl, by decide, by decide, by decide⟩

/-- C2, amended: when the candidate block has a Value item of the entry's name
whose first value is the text `v`, and `atoi v` is defined with value `n`,
decoding the Integer entry returns 0, sets Present and writes `n` to the slot;
`n` is 0 for a text that starts with no integer, such as `abc`. -/
theorem C2_integer_writes_atoi
    (pe : scconf_block → List scconf_entry → Nat → Result (List scconf_entry))
    (config : scconf_context) (block : scconf_block) (name : CStr) (old : Int)
    (arg : Option Nat) (flags : Flags) (depth : Nat) (v : CStr) (rest : scconf_list) (n : Int)
    (hv : scconf_find_list (some block) name = some v :: rest) (hn : atoi v = .ok n) :
    parse_type pe config block (.mk name .INTEGER (.intp old) arg flags) depth =
        .ok ⟨0, .mk name .INTEGER (.intp n) arg { flags with PRESENT := true },
          [.decoding name block depth]⟩ ∧
      (no_leading_integer v = true → n = 0) := by
  constructor
  · simp [parse_type, scconf_get_int, hv, hn, parse_type_end]
  · intro h
    rw [atoi_no_leading_integer v h] at hn
    cases hn
    rfl

theorem C2_integer_writes_atoi_witness :
    scconf_find_list (some tree_num_abc.root) [110, 117, 109] = some [97, 98, 99] :: [] ∧
      atoi [97, 98, 99] = .ok 0 ∧
      parse_type (decode tree_num_abc) tree_num_abc tree_num_abc.root
          (.mk [110, 117, 109] .INTEGER (.intp 7) none no_flags) 0 =
        .ok ⟨0, .mk [110, 117, 109] .INTEGER (.intp 0) none { no_flags with PRESENT := true },
          [.decoding [110, 117, 109] tree_num_abc.root 0]⟩ :=
  ⟨rfl, rfl, (C2_integer_writes_atoi (decode tree_num_abc) tree_num_abc tree_num_abc.root
    [110, 117, 109] 7 none no_flags 0 [97, 98, 99] [] 0 rfl rfl).1⟩

/-! ## C3: an unrecognized type tag -/

/-- C3, evaluated at the failing input: for the tree `num = abc;` and an entry
`num` whose type tag is 99, `parse_type` returns 0 with Present set, and
`scconf_parse_entries` returns 0 with Present set and the slot untouched. -/
theorem C3_invalid_type_succeeds :
    parse_type (decode tree_num_abc) tree_num_abc tree_num_abc.root entry_num_99 0 =
        .ok ⟨0, .mk [110, 117, 109] (.other 99) (.intp 7) none
          { no_flags with PRESENT := true }, [.decoding [110, 117, 109] tree_num_abc.root 0]⟩ ∧
      ∃ o, scconf_parse_entries tree_num_abc none (some [entry_num_99]) = .ok o ∧
        o.status = 0 ∧ o.mem.map (fun e => e.flags.PRESENT) = [true] ∧
        o.mem.map int_slot = [some 7] :=
  ⟨rfl, _, rfl, by decide, by decide, by decide⟩

/-! ## C4: a Mandatory entry without candidate -/

/-- C4: when some entry of the schema is Mandatory and has no candidate in the
block the call starts at, `scconf_parse_entries` returns a nonzero status,
whatever the other entries are, as long as the run has no undefined behaviour. -/
theorem C4_mandatory_missing (config : scconf_context) (block : Option scconf_block)
    (S : List scconf_entry) (e : scconf_entry) (he : e ∈ S)
    (hm : e.flags.MANDATORY = true)
    (hc : candidates config (start_block config block) e = [])
    (hdef : fault_of (scconf_parse_entries config block (some S)) ≠ some .undefined) :
    ∃ o, scconf_parse_entries config block (some S) = .ok o ∧ o.status ≠ 0 := by
  have hnf := decode_no_fuel config (start_block config block) S 0
  rw [scconf_parse_entries_some] at hdef ⊢
  change fault_of (decode config (start_block config block) S 0) ≠ _ at hdef
  change ∃ o, decode config (start_block config block) S 0 = .ok o ∧ _
  cases hx : decode config (start_block config block) S 0 with
  | error f =>
    rw [hx] at hdef hnf
    cases f
    · exact absurd rfl hdef
    · exact absurd rfl hnf
  | ok o =>
    refine ⟨o, rfl, ?_⟩
    intro hs
    rw [decode_eq] at hx
    have h := (parse_entries_loop_success_iff _ config (start_block config block) S).mp
      ⟨o, hx, hs⟩ e he
    exact h.1 hm hc

theorem C4_mandatory_missing_witness :
    entry_str_mandatory ∈ [entry_num, entry_str_mandatory] ∧
      entry_str_mandatory.flags.MANDATORY = true ∧
      candidates tree_num_abc (start_block tree_num_abc none) entry_str_mandatory = [] ∧
      ∃ o, scconf_parse_entries tree_num_abc none (some [entry_num, entry_str_mandatory]) =
        .ok o ∧ o.status ≠ 0 :=
  ⟨List.mem_cons_of_mem _ (List.mem_singleton.mpr rfl), rfl, rfl,
    C4_mandatory_missing tree_num_abc none [entry_num, entry_str_mandatory]
      entry_str_mandatory (List.mem_cons_of_mem _ (List.mem_singleton.mpr rfl)) rfl rfl
      (by decide)⟩

/-! ## The shape of what `parse_type` returns -/

theorem parse_type_end_status (name : CStr) (type : scconf_type) (arg : Option Nat)
    (flags : Flags) (r : Int) (parm : Parm) (t : List Event) :
    (parse_type_end name type arg flags r parm t).status = r := by
  unfold parse_type_end
  split
  · rfl
  · rename_i h
    simp only [ne_eq, not_not] at h
    exact h.symm

theorem parse_type_end_trace (name : CStr) (type : scconf_type) (arg : Option Nat)
    (flags : Flags) (r : Int) (parm : Parm) (t : List Event) :
    (parse_type_end name type arg flags r parm t).trace = t := by
  unfold parse_type_end
  split <;> rfl

theorem parse_type_end_mem (name : CStr) (type : scconf_type) (arg : Option Nat)
    (flags : Flags) (r : Int) (parm : Parm) (t : List Event) :
    (parse_type_end name type arg flags r parm t).mem =
      .mk name type parm arg { flags with PRESENT := flags.PRESENT || decide (r = 0) } := by
  unfold parse_type_end
  by_cases h : r = 0
  · simp [h]
  · simp [h]

/-- What a returning call of `parse_type` leaves: the entry with its name,
type and flags, the flag Present added when the status is 0, and a trace that
starts with the event of the call and goes on with nothing, with the call of
the callback, or with the events of the nested run. -/
theorem parse_type_cases
    (pe : scconf_block → List scconf_entry → Nat → Result (List scconf_entry))
    (config : scconf_context) (block : scconf_block) (name : CStr) (type : scconf_type)
    (parm : Parm) (arg : Option Nat) (flags : Flags) (depth : Nat) (o : Out scconf_entry)
    (h : parse_type pe config block (.mk name type parm arg flags) depth = .ok o) :
    ∃ r parm1 arg1 tr,
      o = parse_type_end name type arg1 flags r parm1 (.decoding name block depth :: tr) ∧
      ((tr = [] ∧ (type = .CALLBACK → r = 0) ∧ (type = .BLOCK → r = 0)) ∨
       (∃ f, type = .CALLBACK ∧ parm = .func f ∧ r = f block name depth ∧
          tr = [.callback name block depth r]) ∨
       (∃ sub o2, type = .BLOCK ∧ parm = .entries sub ∧ pe block sub (depth + 1) = .ok o2 ∧
          r = o2.status ∧ tr = o2.trace ∧ parm1 = .entries o2.mem)) := by
  cases type
  case CALLBACK =>
    cases parm <;> simp only [parse_type] at h <;> cases h
    · exact ⟨0, _, _, [], rfl, Or.inl ⟨rfl, fun _ => rfl, fun _ => rfl⟩⟩
    · rename_i f
      exact ⟨f block name depth, _, _, _, rfl, Or.inr (Or.inl ⟨f, rfl, rfl, rfl, rfl⟩)⟩
  case BLOCK =>
    cases parm <;> simp only [parse_type] at h
    case null =>
      cases h
      exact ⟨0, _, _, [], rfl, Or.inl ⟨rfl, fun _ => rfl, fun _ => rfl⟩⟩
    case entries sub =>
      cases hx : pe block sub (depth + 1) with
      | error f => rw [hx] at h; cases h
      | ok o2 =>
        rw [hx] at h
        cases h
        exact ⟨o2.status, _, _, _, rfl, Or.inr (Or.inr ⟨sub, o2, rfl, rfl, hx, rfl, rfl, rfl⟩)⟩
    all_goals cases h
  case other tag =>
    simp only [parse_type] at h
    cases h
    exact ⟨0, _, _, [], rfl, Or.inl ⟨rfl, by simp, by simp⟩⟩
  case LIST =>
    simp only [parse_type] at h
    split at h
    · cases h
      exact ⟨1, _, _, [], rfl, Or.inl ⟨rfl, by simp, by simp⟩⟩
    · cases parm <;> simp only at h
      case null =>
        split at h
        · split at h
          · cases h
          · cases h
            exact ⟨0, _, _, [], rfl, Or.inl ⟨rfl, by simp, by simp⟩⟩
        · cases h
          exact ⟨0, _, _, [], rfl, Or.inl ⟨rfl, by simp, by simp⟩⟩
      case listp v0 =>
        split at h
        · cases h
          exact ⟨0, _, _, [], rfl, Or.inl ⟨rfl, by simp, by simp⟩⟩
        · split at h
          · split at h
            · cases h
            · cases h
              exact ⟨0, _, _, [], rfl, Or.inl ⟨rfl, by simp, by simp⟩⟩
          · cases h
            exact ⟨0, _, _, [], rfl, Or.inl ⟨rfl, by simp, by simp⟩⟩
      all_goals cases h
  case BOOLEAN =>
    simp only [parse_type] at h
    split at h
    · cases h
    · cases parm <;> simp only at h <;> cases h <;>
        exact ⟨0, _, _, [], rfl, Or.inl ⟨rfl, by simp, by simp⟩⟩
  case INTEGER =>
    simp only [parse_type] at h
    split at h
    · cases h
    · cases parm <;> simp only at h <;> cases h <;>
        exact ⟨0, _, _, [], rfl, Or.inl ⟨rfl, by simp, by simp⟩⟩
  case STRING =>
    simp only [parse_type] at h
    split at h
    · cases h
      exact ⟨1, _, _, [], rfl, Or.inl ⟨rfl, by simp, by simp⟩⟩
    · cases h
      exact ⟨1, _, _, [], rfl, Or.inl ⟨rfl, by simp, by simp⟩⟩
    · cases parm <;> simp only at h
      case null =>
        cases h
        exact ⟨0, _, _, [], rfl, Or.inl ⟨rfl, by simp, by simp⟩⟩
      case strp p =>
        split at h
        · cases h
          exact ⟨0, _, _, [], rfl, Or.inl ⟨rfl, by simp, by simp⟩⟩
        · cases h
      case buf bytes =>
        split at h
        · cases h
        · split at h
          · cases h
            exact ⟨0, _, _, [], rfl, Or.inl ⟨rfl, by simp, by simp⟩⟩
          · cases h
      all_goals cases h

theorem parse_type_status_zero_present
    (pe : scconf_block → List scconf_entry → Nat → Result (List scconf_entry))
    (config : scconf_context) (block : scconf_block) (e : scconf_entry) (depth : Nat)
    (o : Out scconf_entry) (h : parse_type pe config block e depth = .ok o)
    (hs : o.status = 0) : o.mem.flags.PRESENT = true := by
  obtain ⟨name, type, parm, arg, flags⟩ := e
  obtain ⟨r, parm1, arg1, tr, rfl, -⟩ := parse_type_cases pe config block name type parm arg
    flags depth o h
  rw [parse_type_end_status] at hs
  rw [parse_type_end_mem]
  simp [scconf_entry.flags, hs]

theorem parse_type_keeps
    (pe : scconf_block → List scconf_entry → Nat → Result (List scconf_entry))
    (config : scconf_context) (block : scconf_block) (e : scconf_entry) (depth : Nat)
    (o : Out scconf_entry) (h : parse_type pe config block e depth = .ok o) :
    o.mem.name = e.name ∧ o.mem.type = e.type ∧
      o.mem.flags = { e.flags with PRESENT := e.flags.PRESENT || decide (o.status = 0) } := by
  obtain ⟨name, type, parm, arg, flags⟩ := e
  obtain ⟨r, parm1, arg1, tr, rfl, -⟩ := parse_type_cases pe config block name type parm arg
    flags depth o h
  rw [parse_type_end_status, parse_type_end_mem]
  simp [scconf_entry.flags, scconf_entry.name, scconf_entry.type]

/-! ## C5: the decoder stops at the first failure and rolls nothing back -/

theorem parse_entries_loop_cons (pt : scconf_block → scconf_entry → Result scconf_entry)
    (config : scconf_context) (block : scconf_block) (e : scconf_entry)
    (rest : List scconf_entry) :
    parse_entries_loop pt config block (e :: rest) =
      match entry_step pt config block e with
      | .error f => .error f
      | .ok o =>
        if o.status ≠ 0 then .ok ⟨o.status, o.mem :: rest, o.trace⟩
        else
          match parse_entries_loop pt config block rest with
          | .error f => .error f
          | .ok o2 => .ok ⟨o2.status, o.mem :: o2.mem, o.trace ++ o2.trace⟩ := by
  rcases getblocks_none_or_cons config block e with ⟨hg, hc⟩ | ⟨c, cs, hg, hc⟩
  · simp only [parse_entries_loop, entry_step, hg, hc]
    cases hm : e.flags.MANDATORY
    · simp only [Bool.false_eq_true, not_false_eq_true, ↓reduceIte, ne_eq, not_true_eq_false]
      cases parse_entries_loop pt config block rest <;> rfl
    · simp
  · simp only [parse_entries_loop, entry_step, hg, hc]

theorem parse_blocks_present (pt : scconf_block → scconf_entry → Result scconf_entry)
    (hpt : ∀ b e o, pt b e = .ok o → o.status = 0 → o.mem.flags.PRESENT = true)
    (bs : List scconf_block) (e : scconf_entry) (o : Out scconf_entry)
    (h : parse_blocks pt bs e = .ok o) (hs : o.status = 0)
    (hne : e.flags.PRESENT = true ∨ bs ≠ []) : o.mem.flags.PRESENT = true := by
  induction bs generalizing e o with
  | nil =>
    simp only [parse_blocks] at h
    cases h
    rcases hne with hp | hn
    · exact hp
    · exact absurd rfl hn
  | cons b bs ih =>
    simp only [parse_blocks] at h
    cases hx : pt b e with
    | error f => rw [hx] at h; cases h
    | ok o1 =>
      rw [hx] at h
      simp only at h
      split at h
      · cases h
        exact hpt b e o hx hs
      · rename_i hz
        simp only [ne_eq, not_not] at hz
        split at h
        · cases h
          exact hpt b e o hx hs
        · cases hy : parse_blocks pt bs o1.mem with
          | error f => rw [hy] at h; cases h
          | ok o2 =>
            rw [hy] at h
            cases h
            exact ih o1.mem o2 hy hs (Or.inl (hpt b e o1 hx hz))

theorem parse_entries_loop_failure (pt : scconf_block → scconf_entry → Result scconf_entry)
    (hpt : ∀ b e o, pt b e = .ok o → o.status = 0 → o.mem.flags.PRESENT = true)
    (config : scconf_context) (block : scconf_block) (S : List scconf_entry)
    (o : Out (List scconf_entry)) (h : parse_entries_loop pt config block S = .ok o)
    (hr : o.status ≠ 0) :
    ∃ pre ek post outs ok,
      S = pre ++ ek :: post ∧
      List.Forall₂ (round_ok pt config block) pre outs ∧
      entry_step pt config block ek = .ok ok ∧ ok.status = o.status ∧
      o.mem = outs.map (fun o1 => o1.mem) ++ ok.mem :: post ∧
      o.trace = (outs.map (fun o1 => o1.trace)).flatten ++ ok.trace := by
  induction S generalizing o with
  | nil =>
    simp only [parse_entries_loop] at h
    cases h
    exact absurd rfl hr
  | cons e rest ih =>
    rw [parse_entries_loop_cons] at h
    cases hx : entry_step pt config block e with
    | error f => rw [hx] at h; cases h
    | ok o1 =>
      rw [hx] at h
      simp only at h
      split at h
      · cases h
        exact ⟨[], e, rest, [], o1, rfl, List.Forall₂.nil, hx, rfl, rfl, rfl⟩
      · rename_i hz
        simp only [ne_eq, not_not] at hz
        cases hy : parse_entries_loop pt config block rest with
        | error f => rw [hy] at h; cases h
        | ok o2 =>
          rw [hy] at h
          cases h
          obtain ⟨pre, ek, post, outs, ok, h1, h2, h3, h4, h5, h6⟩ := ih o2 hy hr
          refine ⟨e :: pre, ek, post, o1 :: outs, ok, by rw [h1]; rfl,
            List.Forall₂.cons ⟨hx, hz, ?_, ?_⟩ h2, h3, h4, by simp [h5], by simp [h6]⟩
          · intro hc
            unfold entry_step at hx
            cases hcs : candidates config block e with
            | nil => exact absurd hcs hc
            | cons c cs =>
              rw [hcs] at hx
              exact parse_blocks_present pt hpt (c :: cs) e o1 hx hz (Or.inr (by simp))
          · intro hc
            unfold entry_step at hx
            rw [hc] at hx
            cases hx
            exact ⟨rfl, rfl⟩

/-- C5: when `scconf_parse_entries` returns a nonzero status, the schema splits
at an index k into the entries before it, the entry at k and the entries after
it, and
* every entry before k went through its round of the loop with status 0, the
  rounds leaving the results `outs` (with Present where the entry had a
  candidate, the entry as it was where it was skipped);
* the round of the entry at k returned the status of the call;
* the memory after the call is the results of the rounds before k, the result
  of the round at k, and the entries after k exactly as before the call;
* the trace of the call is the events of the rounds before k followed by the
  events of the round at k, and nothing else: no entry after k is decoded and
  no callback of an entry after k is called. -/
theorem C5_fail_fast (config : scconf_context) (block : Option scconf_block)
    (S : List scconf_entry) (o : Out (List scconf_entry))
    (h : scconf_parse_entries config block (some S) = .ok o) (hr : o.status ≠ 0) :
    ∃ pre ek post outs ok,
      S = pre ++ ek :: post ∧
      List.Forall₂ (round_ok (decode_type config 0) config (start_block config block))
        pre outs ∧
      entry_step (decode_type config 0) config (start_block config block) ek = .ok ok ∧
      ok.status = o.status ∧
      o.mem = outs.map (fun o1 => o1.mem) ++ ok.mem :: post ∧
      o.trace = (outs.map (fun o1 => o1.trace)).flatten ++ ok.trace := by
  rw [scconf_parse_entries_some, decode_eq] at h
  exact parse_entries_loop_failure _
    (fun b e o1 h1 h2 => parse_type_status_zero_present _ config b e 0 o1 h1 h2)
    config (start_block config block) S o h hr

theorem C5_fail_fast_witness :
    ∃ o, scconf_parse_entries tree_groups none
        (some [entry_num, entry_group_failing, entry_group_ok]) = .ok o ∧ o.status ≠ 0 ∧
      o.trace = [Event.decoding [110, 117, 109] tree_groups.root 0,
        Event.decoding [103, 114, 111, 117, 112] block_a 0,
        Event.callback [103, 114, 111, 117, 112] block_a 0 1] ∧
      ∃ pre ek post outs ok,
        [entry_num, entry_group_failing, entry_group_ok] = pre ++ ek :: post ∧
        List.Forall₂ (round_ok (decode_type tree_groups 0) tree_groups
          (start_block tree_groups none)) pre outs ∧
        entry_step (decode_type tree_groups 0) tree_groups (start_block tree_groups none)
          ek = .ok ok ∧
        ok.status = o.status ∧
        o.mem = outs.map (fun o1 => o1.mem) ++ ok.mem :: post ∧
        o.trace = (outs.map (fun o1 => o1.trace)).flatten ++ ok.trace :=
  ⟨_, rfl, by decide, rfl, C5_fail_fast tree_groups none
    [entry_num, entry_group_failing, entry_group_ok] _ rfl (by decide)⟩

/-! ## The traces of the decoder -/

theorem quiet_nil : quiet [] := by
  intro ev h
  cases h

theorem quiet_append (t1 t2 : List Event) (h1 : quiet t1) (h2 : quiet t2) :
    quiet (t1 ++ t2) := by
  intro ev h
  rcases List.mem_append.mp h with h | h
  · exact h1 ev h
  · exact h2 ev h

theorem trace_ok_nil (d : Nat) (status : Int) : trace_ok d status [] :=
  ⟨fun _ h => (by cases h), Or.inl quiet_nil⟩

theorem trace_ok_zero_quiet (d : Nat) (t : List Event) (h : trace_ok d 0 t) : quiet t := by
  rcases h.2 with h | ⟨pre, n, b, dd, _, _, h⟩
  · exact h
  · exact absurd rfl h

theorem trace_ok_append (d : Nat) (s : Int) (t1 t2 : List Event)
    (h1 : trace_ok d 0 t1) (h2 : trace_ok d s t2) : trace_ok d s (t1 ++ t2) := by
  refine ⟨?_, ?_⟩
  · intro ev h
    rcases List.mem_append.mp h with h | h
    · exact h1.1 ev h
    · exact h2.1 ev h
  · have hq := trace_ok_zero_quiet d t1 h1
    rcases h2.2 with h | ⟨pre, n, b, dd, ht, hp, hs⟩
    · exact Or.inl (quiet_append t1 t2 hq h)
    · refine Or.inr ⟨t1 ++ pre, n, b, dd, ?_, quiet_append t1 pre hq hp, hs⟩
      rw [ht, List.append_assoc]

theorem trace_ok_mono (d : Nat) (s : Int) (t : List Event) (h : trace_ok (d + 1) s t) :
    trace_ok d s t :=
  ⟨fun ev hev => Nat.le_of_succ_le (h.1 ev hev), h.2⟩

theorem parse_type_trace_ok
    (pe : scconf_block → List scconf_entry → Nat → Result (List scconf_entry))
    (hpe : ∀ b sub d o, pe b sub d = .ok o → trace_ok d o.status o.trace)
    (config : scconf_context) (block : scconf_block) (e : scconf_entry) (depth : Nat)
    (o : Out scconf_entry) (h : parse_type pe config block e depth = .ok o) :
    trace_ok depth o.status o.trace := by
  obtain ⟨name, type, parm, arg, flags⟩ := e
  obtain ⟨r, parm1, arg1, tr, rfl, hc⟩ := parse_type_cases pe config block name type parm arg
    flags depth o h
  rw [parse_type_end_status, parse_type_end_trace]
  have h0 : trace_ok depth 0 [Event.decoding name block depth] := by
    refine ⟨?_, Or.inl ?_⟩
    · intro ev hev
      simp only [List.mem_singleton] at hev
      subst hev
      exact le_rfl
    · intro ev hev
      simp only [List.mem_singleton] at hev
      subst hev
      rfl
  rcases hc with ⟨rfl, -, -⟩ | ⟨f, -, -, -, rfl⟩ | ⟨sub, o2, -, -, hx, rfl, rfl, -⟩
  · exact ⟨h0.1, Or.inl (trace_ok_zero_quiet _ _ h0)⟩
  · refine trace_ok_append depth r [Event.decoding name block depth] _ h0 ⟨?_, ?_⟩
    · intro ev hev
      simp only [List.mem_singleton] at hev
      subst hev
      exact le_rfl
    · by_cases hr : r = 0
      · left
        intro ev hev
        simp only [List.mem_singleton] at hev
        subst hev
        simp [Event.failing, hr]
      · exact Or.inr ⟨[], name, block, depth, rfl, quiet_nil, hr⟩
  · exact trace_ok_append depth o2.status [Event.decoding name block depth] _ h0
      (trace_ok_mono depth _ _ (hpe block sub (depth + 1) o2 hx))

theorem parse_blocks_trace_ok (pt : scconf_block → scconf_entry → Result scconf_entry)
    (d : Nat) (hpt : ∀ b e o, pt b e = .ok o → trace_ok d o.status o.trace)
    (bs : List scconf_block) (e : scconf_entry) (o : Out scconf_entry)
    (h : parse_blocks pt bs e = .ok o) : trace_ok d o.status o.trace := by
  induction bs generalizing e o with
  | nil =>
    simp only [parse_blocks] at h
    cases h
    exact trace_ok_nil d 0
  | cons b bs ih =>
    simp only [parse_blocks] at h
    cases hx : pt b e with
    | error f => rw [hx] at h; cases h
    | ok o1 =>
      rw [hx] at h
      simp only at h
      split at h
      · cases h
        exact hpt b e o hx
      · rename_i hz
        simp only [ne_eq, not_not] at hz
        split at h
        · cases h
          exact hpt b e o hx
        · cases hy : parse_blocks pt bs o1.mem with
          | error f => rw [hy] at h; cases h
          | ok o2 =>
            rw [hy] at h
            cases h
            have h1 := hpt b e o1 hx
            rw [hz] at h1
            exact trace_ok_append d o2.status o1.trace o2.trace h1 (ih o1.mem o2 hy)

theorem entry_step_trace_ok (pt : scconf_block → scconf_entry → Result scconf_entry)
    (d : Nat) (hpt : ∀ b e o, pt b e = .ok o → trace_ok d o.status o.trace)
    (config : scconf_context) (block : scconf_block) (e : scconf_entry) (o : Out scconf_entry)
    (h : entry_step pt config block e = .ok o) : trace_ok d o.status o.trace := by
  unfold entry_step at h
  split at h
  · cases h
    exact trace_ok_nil d _
  · exact parse_blocks_trace_ok pt d hpt _ e o h

theorem parse_entries_loop_trace_ok (pt : scconf_block → scconf_entry → Result scconf_entry)
    (d : Nat) (hpt : ∀ b e o, pt b e = .ok o → trace_ok d o.status o.trace)
    (config : scconf_context) (block : scconf_block) (S : List scconf_entry)
    (o : Out (List scconf_entry)) (h : parse_entries_loop pt config block S = .ok o) :
    trace_ok d o.status o.trace := by
  induction S generalizing o with
  | nil =>
    simp only [parse_entries_loop] at h
    cases h
    exact trace_ok_nil d 0
  | cons e rest ih =>
    rw [parse_entries_loop_cons] at h
    cases hx : entry_step pt config block e with
    | error f => rw [hx] at h; cases h
    | ok o1 =>
      rw [hx] at h
      simp only at h
      have h1 := entry_step_trace_ok pt d hpt config block e o1 hx
      split at h
      · cases h
        exact h1
      · rename_i hz
        simp only [ne_eq, not_not] at hz
        cases hy : parse_entries_loop pt config block rest with
        | error f => rw [hy] at h; cases h
        | ok o2 =>
          rw [hy] at h
          cases h
          rw [hz] at h1
          exact trace_ok_append d o2.status o1.trace o2.trace h1 (ih o2 hy)

theorem parse_entries_trace_ok (n : Nat) :
    ∀ (config : scconf_context) (block : scconf_block) (S : List scconf_entry) (d : Nat)
      (o : Out (List scconf_entry)), parse_entries n config block S d = .ok o →
      trace_ok d o.status o.trace := by
  induction n with
  | zero =>
    intro config block S d o h
    simp [parse_entries] at h
  | succ n ih =>
    intro config block S d o h
    simp only [parse_entries] at h
    refine parse_entries_loop_trace_ok _ d ?_ config block S o h
    intro b e o1 h1
    exact parse_type_trace_ok _ (fun b2 sub d2 o2 h2 => ih config b2 sub d2 o2 h2)
      config b e d o1 h1

theorem decode_trace_ok (config : scconf_context) (block : scconf_block)
    (S : List scconf_entry) (d : Nat) (o : Out (List scconf_entry))
    (h : decode config block S d = .ok o) : trace_ok d o.status o.trace :=
  parse_entries_trace_ok _ config block S d o h

theorem decode_type_trace_ok (config : scconf_context) (d : Nat) (block : scconf_block)
    (e : scconf_entry) (o : Out scconf_entry) (h : decode_type config d block e = .ok o) :
    trace_ok d o.status o.trace :=
  parse_type_trace_ok _ (fun b sub d2 o2 h2 => decode_trace_ok config b sub d2 o2 h2)
    config block e d o h

/-! ## C6: the candidates an entry visits -/

theorem visits_append (d : Nat) (t1 t2 : List Event) :
    visits d (t1 ++ t2) = visits d t1 ++ visits d t2 := by
  simp [visits, List.filterMap_append]

theorem visits_deeper (d : Nat) (t : List Event) (h : ∀ ev ∈ t, d + 1 ≤ ev.depth) :
    visits d t = [] := by
  induction t with
  | nil => rfl
  | cons ev t ih =>
    have h1 := h ev (List.mem_cons_self _ _)
    have h2 := ih (fun ev2 hev => h ev2 (List.mem_cons_of_mem _ hev))
    cases ev with
    | decoding n b dd =>
      simp only [Event.depth] at h1
      have hne : ¬ dd = d := by omega
      simp only [visits, List.filterMap_cons, hne, ↓reduceIte]
      exact h2
    | callback n b dd s =>
      simp only [visits, List.filterMap_cons]
      exact h2

theorem parse_type_visits
    (pe : scconf_block → List scconf_entry → Nat → Result (List scconf_entry))
    (hpe : ∀ b sub d o, pe b sub d = .ok o → trace_ok d o.status o.trace)
    (config : scconf_context) (block : scconf_block) (e : scconf_entry) (depth : Nat)
    (o : Out scconf_entry) (h : parse_type pe config block e depth = .ok o) :
    visits depth o.trace = [block] := by
  obtain ⟨name, type, parm, arg, flags⟩ := e
  obtain ⟨r, parm1, arg1, tr, rfl, hc⟩ := parse_type_cases pe config block name type parm arg
    flags depth o h
  rw [parse_type_end_trace]
  have hcons : visits depth (Event.decoding name block depth :: tr) =
      block :: visits depth tr := by
    simp [visits]
  rw [hcons]
  rcases hc with ⟨rfl, -, -⟩ | ⟨f, -, -, -, rfl⟩ | ⟨sub, o2, -, -, hx, -, rfl, -⟩
  · rfl
  · rfl
  · rw [visits_deeper depth o2.trace (hpe block sub (depth + 1) o2 hx).1]

theorem parse_blocks_visits (pt : scconf_block → scconf_entry → Result scconf_entry)
    (d : Nat)
    (hpt : ∀ b e o, pt b e = .ok o →
      visits d o.trace = [b] ∧ o.mem.flags.ALL_BLOCKS = e.flags.ALL_BLOCKS)
    (bs : List scconf_block) (e : scconf_entry) (o : Out scconf_entry)
    (h : parse_blocks pt bs e = .ok o) :
    (e.flags.ALL_BLOCKS = false → visits d o.trace = bs.take 1) ∧
      (e.flags.ALL_BLOCKS = true →
        visits d o.trace <+: bs ∧ (o.status = 0 → visits d o.trace = bs)) := by
  induction bs generalizing e o with
  | nil =>
    simp only [parse_blocks] at h
    cases h
    exact ⟨fun _ => rfl, fun _ => ⟨List.prefix_refl _, fun _ => rfl⟩⟩
  | cons b bs ih =>
    simp only [parse_blocks] at h
    cases hx : pt b e with
    | error f => rw [hx] at h; cases h
    | ok o1 =>
      rw [hx] at h
      obtain ⟨hv, hf⟩ := hpt b e o1 hx
      have hpre : [b] <+: b :: bs := ⟨bs, rfl⟩
      simp only at h
      split at h
      · rename_i hz
        cases h
        refine ⟨fun _ => by rw [hv]; rfl, fun _ => ⟨by rw [hv]; exact hpre, fun hs => ?_⟩⟩
        exact absurd hs hz
      · rename_i hz
        simp only [ne_eq, not_not] at hz
        split at h
        · rename_i hall
          cases h
          refine ⟨fun _ => by rw [hv]; rfl, fun ht => ?_⟩
          rw [hf, ht] at hall
          exact absurd rfl hall
        · rename_i hall
          simp only [Bool.not_eq_true, not_not] at hall
          cases hy : parse_blocks pt bs o1.mem with
          | error f => rw [hy] at h; cases h
          | ok o2 =>
            rw [hy] at h
            cases h
            rw [hf] at hall
            refine ⟨fun hn => absurd hn hall, fun ht => ?_⟩
            · obtain ⟨-, h2⟩ := ih o1.mem o2 hy
              obtain ⟨h3, h4⟩ := h2 (by rw [hf]; exact ht)
              simp only [visits_append, hv, List.singleton_append]
              refine ⟨(List.prefix_cons_inj b).mpr h3, fun hs => ?_⟩
              rw [h4 hs]

theorem candidates_of_child_blocks (config : scconf_context) (block : scconf_block)
    (e : scconf_entry) (c : scconf_block) (cs : List scconf_block)
    (hc : child_blocks e.name block.items = c :: cs) :
    candidates config block e = c :: cs := by
  unfold candidates
  rw [getblocks_eq, hc]

/-- C6, refuted as stated: in the tree with three blocks named `group`, a
Callback entry `group` with AllMatches set whose callback returns 1 has its
type decode applied to the first of the three blocks only. -/
theorem C6_counterexample :
    child_blocks entry_group_failing.name tree_groups.root.items =
        [block_a, block_b, block_c] ∧
      entry_group_failing.flags.ALL_BLOCKS = true ∧
      ∃ o, entry_step (decode_type tree_groups 0) tree_groups tree_groups.root
          entry_group_failing = .ok o ∧
        visits 0 o.trace = [block_a] ∧ (visits 0 o.trace).length ≠ 3 :=
  ⟨rfl, rfl, _, rfl, rfl, by decide⟩

theorem parse_blocks_chain (pt : scconf_block → scconf_entry → Result scconf_entry)
    (d : Nat)
    (hpt : ∀ b e o, pt b e = .ok o →
      visits d o.trace = [b] ∧ o.mem.flags.ALL_BLOCKS = e.flags.ALL_BLOCKS)
    (bs : List scconf_block) (e : scconf_entry) (o : Out scconf_entry)
    (h : parse_blocks pt bs e = .ok o) (hall : e.flags.ALL_BLOCKS = true) :
    (o.status = 0 → visits d o.trace = bs ∧ chain_ok pt bs e o.mem) ∧
      (o.status ≠ 0 → ∃ pre x post e1 ox, bs = pre ++ x :: post ∧
        visits d o.trace = pre ++ [x] ∧ chain_ok pt pre e e1 ∧
        pt x e1 = .ok ox ∧ ox.status = o.status ∧ ox.mem = o.mem) := by
  induction bs generalizing e o with
  | nil =>
    simp only [parse_blocks] at h
    cases h
    exact ⟨fun _ => ⟨rfl, rfl⟩, fun hne => absurd rfl hne⟩
  | cons b bs ih =>
    simp only [parse_blocks] at h
    cases hx : pt b e with
    | error f => rw [hx] at h; cases h
    | ok o1 =>
      rw [hx] at h
      obtain ⟨hv, hf⟩ := hpt b e o1 hx
      simp only at h
      split at h
      · rename_i hz
        cases h
        refine ⟨fun hs => absurd hs hz, fun _ => ?_⟩
        exact ⟨[], b, bs, e, o, rfl, by rw [hv]; rfl, rfl, hx, rfl, rfl⟩
      · rename_i hz
        simp only [ne_eq, not_not] at hz
        split at h
        · rename_i hno
          rw [hf, hall] at hno
          exact absurd rfl hno
        · cases hy : parse_blocks pt bs o1.mem with
          | error f => rw [hy] at h; cases h
          | ok o2 =>
            rw [hy] at h
            cases h
            obtain ⟨h1, h2⟩ := ih o1.mem o2 hy (by rw [hf]; exact hall)
            simp only [visits_append, hv, List.singleton_append]
            refine ⟨fun hs => ?_, fun hs => ?_⟩
            · obtain ⟨h3, h4⟩ := h1 hs
              exact ⟨by rw [h3], o1, hx, hz, h4⟩
            · obtain ⟨pre, x, post, e1, ox, h3, h4, h5, h6, h7, h8⟩ := h2 hs
              exact ⟨b :: pre, x, post, e1, ox, by rw [h3]; rfl, by rw [h4]; rfl,
                ⟨o1, hx, hz, h5⟩, h6, h7, h8⟩

/-- C6, amended: in a block whose child blocks named like the entry are
`c :: cs`, in document order, the round of the outer loop for the entry applies
`parse_type` at its depth
* to `c` only, when AllMatches is not set, and the result of the round is the
  result of that call;
* when AllMatches is set, to the blocks of a prefix of `c :: cs`, each once and
  in that order, every call on the entry as the call before left it: to all of
  `c :: cs`, every decode returning 0, when the round returns 0; and, when the
  round returns nonzero, to the blocks `pre` whose decodes returned 0 followed
  by the first block `x` whose decode returned nonzero, the status of the
  round, the blocks `post` after `x` not being visited. -/
theorem C6_visits (config : scconf_context) (depth : Nat) (block : scconf_block)
    (e : scconf_entry) (c : scconf_block) (cs : List scconf_block) (o : Out scconf_entry)
    (hc : child_blocks e.name block.items = c :: cs)
    (h : entry_step (decode_type config depth) config block e = .ok o) :
    (e.flags.ALL_BLOCKS = false →
        visits depth o.trace = [c] ∧ decode_type config depth c e = .ok o) ∧
      (e.flags.ALL_BLOCKS = true →
        visits depth o.trace <+: c :: cs ∧
        (o.status = 0 → visits depth o.trace = c :: cs ∧
          chain_ok (decode_type config depth) (c :: cs) e o.mem) ∧
        (o.status ≠ 0 → ∃ pre x post e1 ox, c :: cs = pre ++ x :: post ∧
          visits depth o.trace = pre ++ [x] ∧
          chain_ok (decode_type config depth) pre e e1 ∧
          decode_type config depth x e1 = .ok ox ∧ ox.status = o.status ∧
          ox.mem = o.mem)) := by
  unfold entry_step at h
  rw [candidates_of_child_blocks config block e c cs hc] at h
  simp only at h
  have hpt : ∀ b e1 o1, decode_type config depth b e1 = .ok o1 →
      visits depth o1.trace = [b] ∧ o1.mem.flags.ALL_BLOCKS = e1.flags.ALL_BLOCKS := by
    intro b e1 o1 h1
    refine ⟨parse_type_visits _
      (fun b2 sub d2 o2 h2 => decode_trace_ok config b2 sub d2 o2 h2)
      config b e1 depth o1 h1, ?_⟩
    rw [(parse_type_keeps _ config b e1 depth o1 h1).2.2]
  have hv := parse_blocks_visits (decode_type config depth) depth hpt (c :: cs) e o h
  refine ⟨fun hno => ⟨hv.1 hno, ?_⟩, fun hall => ?_⟩
  · simp only [parse_blocks] at h
    cases hx : decode_type config depth c e with
    | error f => rw [hx] at h; cases h
    | ok o1 =>
      rw [hx] at h
      have hf := (hpt c e o1 hx).2
      simp only at h
      split at h
      · exact h
      · split at h
        · exact h
        · rename_i hyes
          rw [hf, hno] at hyes
          exact absurd (by simp) hyes
  · have hch := parse_blocks_chain (decode_type config depth) depth hpt (c :: cs) e o h hall
    exact ⟨(hv.2 hall).1, hch.1, hch.2⟩

theorem C6_visits_witness :
    child_blocks entry_group_ok.name tree_groups.root.items = block_a :: [block_b, block_c] ∧
      entry_group_ok.flags.ALL_BLOCKS = true ∧
      ∃ o, entry_step (decode_type tree_groups 0) tree_groups tree_groups.root
          entry_group_ok = .ok o ∧ o.status = 0 ∧
        visits 0 o.trace = block_a :: [block_b, block_c] ∧
        chain_ok (decode_type tree_groups 0) (block_a :: [block_b, block_c]) entry_group_ok
          o.mem :=
  ⟨rfl, rfl, _, rfl, rfl,
    ((C6_visits tree_groups 0 tree_groups.root entry_group_ok block_a
      [block_b, block_c] _ rfl rfl).2 rfl).2.1 rfl⟩

/-! ## C7: candidate resolution -/

theorem find_list_loop_first_value (name : CStr) (items : List scconf_item) :
    find_list_loop name items = (first_value name items).getD [] := by
  induction items with
  | nil => rfl
  | cons it rest ih =>
    cases it with
    | comment k t => simpa [find_list_loop, first_value] using ih
    | block k b => simpa [find_list_loop, first_value] using ih
    | value k l =>
      by_cases hk : strcasecmp name k = 0
      · simp [find_list_loop, first_value, hk]
      · simpa [find_list_loop, first_value, hk] using ih

/-- C7, refuted as stated: the root of the tree `num = ;` has a Value item
named `num` and no child block of that name, and `getblocks` finds no candidate
for an entry named `num`. -/
theorem C7_counterexample :
    (∃ k l, scconf_item.value k l ∈ tree_num_empty.root.items ∧
        strcasecmp entry_num.name k = 0) ∧
      child_blocks entry_num.name tree_num_empty.root.items = [] ∧
      getblocks tree_num_empty tree_num_empty.root entry_num = .ok none :=
  ⟨⟨_, _, List.mem_singleton.mpr rfl, rfl⟩, rfl, rfl⟩

/-- C7, amended: the candidates of an entry E in a block B are the child blocks
of B whose key is the name of E, letter case aside, in document order, when
there is at least one (whatever Value items B has); otherwise the block B
alone when the first Value item of B named like E has at least one value;
otherwise there is no candidate. -/
theorem C7_getblocks (config : scconf_context) (B : scconf_block) (E : scconf_entry) :
    getblocks config B E = .ok
      (match child_blocks E.name B.items, first_value E.name B.items with
       | c :: cs, _ => some (c :: cs)
       | [], some (_ :: _) => some [B]
       | [], _ => none) := by
  rw [getblocks_eq, find_list_loop_first_value]
  cases child_blocks E.name B.items with
  | cons c cs => rfl
  | nil =>
    cases first_value E.name B.items with
    | none => rfl
    | some l => cases l <;> rfl

/-! ## C8: a failure is returned unchanged and ends the run -/

/-- C8: when the trace of a call of `scconf_parse_entries` holds the return of
a callback with a nonzero status `r`, at whatever depth, the call returns `r`
and the trace ends there: after it no entry is decoded and no callback is
called, at any level. -/
theorem C8_failure_propagates (config : scconf_context) (block : Option scconf_block)
    (S : List scconf_entry) (o : Out (List scconf_entry))
    (h : scconf_parse_entries config block (some S) = .ok o)
    (pre post : List Event) (name : CStr) (b : scconf_block) (d : Nat) (r : Int)
    (ht : o.trace = pre ++ Event.callback name b d r :: post) (hr : r ≠ 0) :
    o.status = r ∧ post = [] := by
  rw [scconf_parse_entries_some] at h
  have hok := decode_trace_ok config _ S 0 o h
  have hfail : (Event.callback name b d r).failing = true := by
    simp [Event.failing, hr]
  rcases hok.2 with hq | ⟨pre2, n2, b2, d2, ht2, hq2, hs⟩
  · have hmem : Event.callback name b d r ∈ o.trace := by
      rw [ht]
      simp
    rw [hq _ hmem] at hfail
    cases hfail
  · rw [ht] at ht2
    cases post with
    | nil =>
      have h1 := List.append_inj_right' ht2 rfl
      simp only [List.cons.injEq, Event.callback.injEq, and_true] at h1
      exact ⟨h1.2.2.2.symm, rfl⟩
    | cons p ps =>
      exfalso
      have h2 : (pre ++ Event.callback name b d r :: p :: ps).dropLast = pre2 := by
        rw [ht2]
        simp
      have hmem : Event.callback name b d r ∈ pre2 := by
        rw [← h2]
        rw [List.dropLast_append_of_ne_nil _ (by simp)]
        simp [List.dropLast]
      rw [hq2 _ hmem] at hfail
      cases hfail

theorem C8_failure_propagates_witness :
    ∃ o, scconf_parse_entries tree_groups none (some [entry_group_nested, entry_num]) = .ok o ∧
      o.trace = [Event.decoding [103, 114, 111, 117, 112] block_a 0,
          Event.decoding [120] block_a 1] ++ Event.callback [120] block_a 1 5 :: [] ∧
      (5 : Int) ≠ 0 ∧ o.status = 5 ∧ ([] : List Event) = [] :=
  ⟨_, rfl, rfl, by decide, C8_failure_propagates tree_groups none
    [entry_group_nested, entry_num] _ rfl
    [Event.decoding [103, 114, 111, 117, 112] block_a 0, Event.decoding [120] block_a 1] []
    [120] block_a 1 5 rfl (by decide)⟩

/-! ## C9 and C10: String entries -/

theorem list_copy_loop_eq (l dest : scconf_list) : list_copy_loop l dest = dest ++ l := by
  induction l generalizing dest with
  | nil => simp [list_copy_loop]
  | cons d rest ih => simp [list_copy_loop, scconf_list_add, ih]

/-- C11: for a List entry whose `parm` points to a list variable, and a
candidate block whose Value list for the name of the entry is `l`, not null,
`parse_type` returns 0, sets Present and leaves in the variable a list with the
values of `l` in the order of `l`: with OwnedCopy the list the copying loop
builds node by node with `scconf_list_add`, which is equal to `l`, and without
it `l` itself; this as long as the call has no undefined behaviour. -/
theorem C11_list_same_values
    (pe : scconf_block → List scconf_entry → Nat → Result (List scconf_entry))
    (config : scconf_context) (block : scconf_block) (name : CStr) (old : scconf_list)
    (arg : Option Nat) (flags : Flags) (depth : Nat) (l : scconf_list)
    (hl : scconf_find_list (some block) name = l) (hne : l ≠ [])
    (hdef : fault_of (parse_type pe config block (.mk name .LIST (.listp old) arg flags) depth)
      ≠ some .undefined) :
    parse_type pe config block (.mk name .LIST (.listp old) arg flags) depth =
        .ok ⟨0, .mk name .LIST (.listp (if flags.ALLOC then list_copy_loop l [] else l)) arg
          { flags with PRESENT := true }, [.decoding name block depth]⟩ ∧
      list_copy_loop l [] = l := by
  refine ⟨?_, by simp [list_copy_loop_eq]⟩
  obtain ⟨v, vs, rfl⟩ := List.exists_cons_of_ne_nil hne
  simp only [parse_type, hl] at hdef ⊢
  cases hal : flags.ALLOC
  · simp only [hal, Bool.false_eq_true, ↓reduceIte] at hdef ⊢
    cases hvb : flags.VERBOSE
    · simp [parse_type_end, hal, hvb]
    · simp only [hvb, ↓reduceIte] at hdef ⊢
      cases hx : scconf_list_strdup (v :: vs) (some [44, 32]) with
      | error f =>
        rw [hx] at hdef
        have hf := scconf_list_strdup_fault _ _ _ hx
        subst hf
        exact absurd rfl hdef
      | ok s => simp [parse_type_end, hal, hvb]
  · simp [parse_type_end, hal]

theorem C11_list_same_values_witness :
    scconf_find_list (some tree_str.root) [115, 116, 114] = [some [104, 101, 108, 108, 111]] ∧
      ([some [104, 101, 108, 108, 111]] : scconf_list) ≠ [] ∧
      parse_type (decode tree_str) tree_str tree_str.root entry_str_list 0 =
        .ok ⟨0, .mk [115, 116, 114] .LIST
            (.listp (if ({ no_flags with ALLOC := true } : Flags).ALLOC
              then list_copy_loop [some [104, 101, 108, 108, 111]] []
              else [some [104, 101, 108, 108, 111]])) none
            { no_flags with ALLOC := true, PRESENT := true },
          [.decoding [115, 116, 114] tree_str.root 0]⟩ :=
  ⟨rfl, by decide, (C11_list_same_values (decode tree_str) tree_str tree_str.root
    [115, 116, 114] [] none { no_flags with ALLOC := true } 0 [some [104, 101, 108, 108, 111]]
    rfl (by decide) (by decide)).1⟩

/-! ## C13: `scconf_find_blocks` with a key -/

/-- C13, evaluated at the failing input: in the tree `group { }` the child block
has no name token, and `scconf_find_blocks` called with the name `group` and the
key `foo` reads the first name token through the null pointer `block->name`:
the call has undefined behaviour instead of skipping the block. -/
theorem C13_unnamed_block_faults :
    child_blocks [103, 114, 111, 117, 112] tree_unnamed.root.items = [.mk [] []] ∧
      scconf_find_blocks tree_unnamed none (some [103, 114, 111, 117, 112])
        (some [102, 111, 111]) = .error .undefined :=
  ⟨rfl, rfl⟩

/-- When every child block whose item key is `name` has a first name token, the
loop of `scconf_find_blocks` with a key stores, in document order, the child
blocks whose item key is `name` and whose first name token is `key`, letter
case aside. -/
theorem find_blocks_loop_keyed (name key : CStr) (items : List scconf_item)
    (hnamed : ∀ k b, scconf_item.block k b ∈ items → strcasecmp name k = 0 →
      ∃ d rest, b.name = some d :: rest) :
    find_blocks_loop name (some key) items =
      .ok ((child_blocks name items).filter (fun b =>
        match b.name with
        | some d :: _ => decide (strcasecmp key d = 0)
        | _ => false)) := by
  induction items with
  | nil => rfl
  | cons it rest ih =>
    have ih1 := ih (fun k b hm hk => hnamed k b (List.mem_cons_of_mem _ hm) hk)
    cases it with
    | comment k t => simpa [find_blocks_loop, child_blocks] using ih1
    | value k l => simpa [find_blocks_loop, child_blocks] using ih1
    | block k b =>
      by_cases hk : strcasecmp name k = 0
      · obtain ⟨d, tl, hd⟩ := hnamed k b (List.mem_cons_self _ _) hk
        have ih2 : find_blocks_loop name (some key) rest = .ok
            (List.filter (fun b =>
              match b.name with
              | some d :: _ => decide (strcasecmp key d = 0)
              | _ => false) (child_blocks name rest)) := ih1
        by_cases hkey : strcasecmp key d = 0
        · simp [find_blocks_loop, child_blocks, hk, hd, hkey, ih2, Except.map,
            List.filter_cons] at ih2 ⊢
        · simp [find_blocks_loop, child_blocks, hk, hd, hkey, List.filter_cons] at ih2 ⊢
          simpa [child_blocks] using ih2
      · simpa [find_blocks_loop, child_blocks, hk] using ih1

/-! ## C14: `scconf_find_block` -/

theorem find_block_loop_spec (name : CStr) (items : List scconf_item) :
    (find_block_loop name items = none ∧
        ∀ k b, scconf_item.block k b ∈ items → strcasecmp name k ≠ 0) ∨
      ∃ pre k b post, items = pre ++ scconf_item.block k b :: post ∧ strcasecmp name k = 0 ∧
        (∀ k2 b2, scconf_item.block k2 b2 ∈ pre → strcasecmp name k2 ≠ 0) ∧
        find_block_loop name items = some b := by
  induction items with
  | nil =>
    left
    exact ⟨rfl, fun k b h => by cases h⟩
  | cons it rest ih =>
    have hskip : (∀ k b, it ≠ scconf_item.block k b ∨ strcasecmp name k ≠ 0) →
        find_block_loop name (it :: rest) = find_block_loop name rest →
        ((find_block_loop name (it :: rest) = none ∧
          ∀ k b, scconf_item.block k b ∈ it :: rest → strcasecmp name k ≠ 0) ∨
        ∃ pre k b post, it :: rest = pre ++ scconf_item.block k b :: post ∧
          strcasecmp name k = 0 ∧
          (∀ k2 b2, scconf_item.block k2 b2 ∈ pre → strcasecmp name k2 ≠ 0) ∧
          find_block_loop name (it :: rest) = some b) := by
      intro hit heq
      rcases ih with ⟨h1, h2⟩ | ⟨pre, k, b, post, h1, h2, h3, h4⟩
      · left
        refine ⟨by rw [heq, h1], ?_⟩
        intro k b hmem
        rcases List.mem_cons.mp hmem with hm | hm
        · rcases hit k b with hne | hne
          · exact absurd hm.symm hne
          · exact hne
        · exact h2 k b hm
      · right
        refine ⟨it :: pre, k, b, post, by rw [h1]; rfl, h2, ?_, by rw [heq, h4]⟩
        intro k2 b2 hmem
        rcases List.mem_cons.mp hmem with hm | hm
        · rcases hit k2 b2 with hne | hne
          · exact absurd hm.symm hne
          · exact hne
        · exact h3 k2 b2 hm
    cases it with
    | comment k t =>
      exact hskip (fun k b => Or.inl (by simp)) (by simp [find_block_loop])
    | value k l =>
      exact hskip (fun k b => Or.inl (by simp)) (by simp [find_block_loop])
    | block k b =>
      by_cases hk : strcasecmp name k = 0
      · right
        exact ⟨[], k, b, rest, rfl, hk, fun k2 b2 h => (by cases h),
          by simp [find_block_loop, hk]⟩
      · refine hskip ?_ (by simp [find_block_loop, hk])
        intro k2 b2
        by_cases he : scconf_item.block k b = scconf_item.block k2 b2
        · right
          cases he
          exact hk
        · exact Or.inl he

/-- C14: `scconf_find_block`, called with a name, scans the items of the block
(the root of the tree when the block argument is null): either no item of the
block is a Block item whose key is the name, letter case aside, and the result
is null; or the result is the block of the first such item in document order.
Only Block items standing in the block itself are looked at. -/
theorem C14_find_block_first (config : scconf_context) (block : Option scconf_block)
    (name : CStr) :
    (scconf_find_block config block (some name) = none ∧
        ∀ k b, scconf_item.block k b ∈ (start_block config block).items →
          strcasecmp name k ≠ 0) ∨
      ∃ pre k b post,
        (start_block config block).items = pre ++ scconf_item.block k b :: post ∧
        strcasecmp name k = 0 ∧
        (∀ k2 b2, scconf_item.block k2 b2 ∈ pre → strcasecmp name k2 ≠ 0) ∧
        scconf_find_block config block (some name) = some b := by
  have h := find_block_loop_spec name (start_block config block).items
  cases block <;> exact h

/-! ## C15: `scconf_get_bool` -/

theorem toupper_T_or_Y (c : Nat) :
    (toupper c = 84 ∨ toupper c = 89) ↔ (c = 116 ∨ c = 84 ∨ c = 121 ∨ c = 89) := by
  unfold toupper
  split <;> omega

/-- C15, refuted as stated: the root of the tree `num = ;` has a Value item
named `num`, and `scconf_get_bool` returns the default for it: 1 for the
default 1 and 0 for the default 0. -/
theorem C15_counterexample :
    (∃ k l, scconf_item.value k l ∈ tree_num_empty.root.items ∧
        strcasecmp [110, 117, 109] k = 0) ∧
      scconf_get_bool (some tree_num_empty.root) [110, 117, 109] 1 = .ok 1 ∧
      scconf_get_bool (some tree_num_empty.root) [110, 117, 109] 0 = .ok 0 :=
  ⟨⟨_, _, List.mem_singleton.mpr rfl, rfl⟩, rfl, rfl⟩

/-- C15, amended: `scconf_get_bool` returns the default when the block is null,
when the block has no Value item with that name and when the first such item
has no value; when the first value of the first such item is the text `v`, it
returns 1 if the first byte of `v` is `t`, `T`, `y` or `Y`, and 0 for any other
first byte and for the empty text, whatever the default; a first node without
data is undefined behaviour. -/
theorem C15_get_bool (block : scconf_block) (option : CStr) (dflt : Int) :
    scconf_get_bool none option dflt = .ok dflt ∧
      scconf_get_bool (some block) option dflt =
        (match first_value option block.items with
         | none => .ok dflt
         | some [] => .ok dflt
         | some (none :: _) => .error .undefined
         | some (some [] :: _) => .ok 0
         | some (some (c :: _) :: _) =>
           .ok (if c = 116 ∨ c = 84 ∨ c = 121 ∨ c = 89 then 1 else 0)) := by
  refine ⟨rfl, ?_⟩
  unfold scconf_get_bool scconf_find_list
  simp only [find_list_loop_first_value]
  cases first_value option block.items with
  | none => rfl
  | some l =>
    cases l with
    | nil => rfl
    | cons d rest =>
      cases d with
      | none => rfl
      | some v =>
        cases v with
        | nil => simp [toupper]
        | cons c cs => simp [toupper_T_or_Y]

/-! ## C16 and C17: `scconf_list_strdup` -/

/-- C17, evaluated at the failing input: for the list of one node whose `data`
is null (as `scconf_list_add` builds it for a null value) and the filler `, `,
the buffer has 3 bytes, the loop appends nothing, and the final write goes to
the index `0 - 2` of type `size_t`, outside the buffer: undefined behaviour. -/
theorem C17_null_first_value_out_of_bounds :
    scconf_list_add [] none = [none] ∧
      scconf_list_strings_length [none] +
        scconf_list_array_length [none] * (([44, 32] : CStr).length + 1) = 3 ∧
      strdup_loop 3 (some [44, 32]) [none] [] = .ok [] ∧
      scconf_list_strdup [none] (some [44, 32]) = .error .undefined :=
  ⟨rfl, rfl, rfl, rfl⟩

/-! ## C19: Integer entries -/

/-- C19, refuted as stated: in the tree `num { num = ; }` the candidate of the
Integer entry `num` is the child block `num`, which holds a Value item named
`num`; the item has no first value and the slot receives 42. -/
theorem C19_counterexample :
    candidates tree_num_block_empty tree_num_block_empty.root entry_num =
        [.mk [] [.value [110, 117, 109] []]] ∧
      first_value entry_num.name [scconf_item.value [110, 117, 109] []] = some [] ∧
      ∃ o, scconf_parse_entries tree_num_block_empty none (some [entry_num]) = .ok o ∧
        o.status = 0 ∧ o.mem.map int_slot = [some 42] :=
  ⟨rfl, rfl, _, rfl, by decide, by decide⟩

/-- C19, amended: for an Integer entry whose `parm` points to an `int`, decoded
against a candidate block `c`:
* when `c` has no Value item of the entry's name, or the first such item has no
  value, `parse_type` returns 0, sets Present and writes 42 to the slot;
* when the first value of the first such item is the text `v` and `atoi v` is
  defined with value `n`, it returns 0, sets Present and writes `n`, which is 0
  when `v` starts with no integer. -/
theorem C19_integer_default_or_atoi
    (pe : scconf_block → List scconf_entry → Nat → Result (List scconf_entry))
    (config : scconf_context) (c : scconf_block) (name : CStr) (old : Int)
    (arg : Option Nat) (flags : Flags) (depth : Nat) :
    ((first_value name c.items = none ∨ first_value name c.items = some []) →
      parse_type pe config c (.mk name .INTEGER (.intp old) arg flags) depth =
        .ok ⟨0, .mk name .INTEGER (.intp 42) arg { flags with PRESENT := true },
          [.decoding name c depth]⟩) ∧
    (∀ v rest n, first_value name c.items = some (some v :: rest) → atoi v = .ok n →
      parse_type pe config c (.mk name .INTEGER (.intp old) arg flags) depth =
          .ok ⟨0, .mk name .INTEGER (.intp n) arg { flags with PRESENT := true },
            [.decoding name c depth]⟩ ∧
        (no_leading_integer v = true → n = 0)) := by
  constructor
  · intro h
    have hl : scconf_find_list (some c) name = [] := by
      show find_list_loop name c.items = []
      rw [find_list_loop_first_value]
      rcases h with h | h <;> rw [h] <;> rfl
    simp [parse_type, scconf_get_int, hl, parse_type_end]
  · intro v rest n hv hn
    have hl : scconf_find_list (some c) name = some v :: rest := by
      show find_list_loop name c.items = some v :: rest
      rw [find_list_loop_first_value, hv]
      rfl
    constructor
    · simp [parse_type, scconf_get_int, hl, hn, parse_type_end]
    · intro h
      rw [atoi_no_leading_integer v h] at hn
      cases hn
      rfl

theorem C19_integer_default_or_atoi_witness :
    (parse_type (decode tree_num_block_empty) tree_num_block_empty
        (.mk [] [.value [110, 117, 109] []]) entry_num 0 =
      .ok ⟨0, .mk [110, 117, 109] .INTEGER (.intp 42) none { no_flags with PRESENT := true },
        [.decoding [110, 117, 109] (.mk [] [.value [110, 117, 109] []]) 0]⟩) ∧
    (parse_type (decode tree_num_abc) tree_num_abc tree_num_abc.root entry_num 0 =
      .ok ⟨0, .mk [110, 117, 109] .INTEGER (.intp 0) none { no_flags with PRESENT := true },
        [.decoding [110, 117, 109] tree_num_abc.root 0]⟩) :=
  ⟨(C19_integer_default_or_atoi (decode tree_num_block_empty) tree_num_block_empty
      (.mk [] [.value [110, 117, 109] []]) [110, 117, 109] 7 none no_flags 0).1 (Or.inr rfl),
    ((C19_integer_default_or_atoi (decode tree_num_abc) tree_num_abc tree_num_abc.root
      [110, 117, 109] 7 none no_flags 0).2 [97, 98, 99] [] 0 rfl rfl).1⟩

/-! ## C20: the draws of the lottery test program -/

/-- C20, evaluated at two failing inputs. For the challenge whose first two
bytes are 39 and 0 the first draw has `lot = 39 % 40 = 39`, and `alkiot[39]` is
read, one past the 39 elements of the array. For the challenge whose third byte
is 38 and whose other bytes are 0 no read is out of bounds, the second draw has
`lot = 38 = jaljella`, and the row holds the number 39 twice. -/
theorem C20_lot_reaches_jaljella :
    lottery_row [39, 0, 0, 0, 0, 0, 0, 0, 0, 0, 0, 0, 0, 0] = .error .undefined ∧
      lottery_row [0, 0, 38, 0, 0, 0, 0, 0, 0, 0, 0, 0, 0, 0] =
        .ok [1, 39, 39, 37, 36, 35, 34] ∧
      ¬ ([1, 39, 39, 37, 36, 35, 34] : List Nat).Nodup := by
  refine ⟨by rfl, by rfl, by decide⟩

/-! ## C12: the flags after a successful decode -/

theorem static_entries_eq_map (S : List scconf_entry) :
    static_entries S = S.map scconf_entry.static := by
  induction S with
  | nil => rfl
  | cons e rest ih => simp [static_entries, ih]

theorem parse_type_end_static (name : CStr) (type : scconf_type) (arg : Option Nat)
    (flags : Flags) (r : Int) (parm : Parm) (t : List Event) :
    (parse_type_end name type arg flags r parm t).mem.static =
      .mk name type parm.static (arg.map (fun _ => 0)) { flags with PRESENT := false } := by
  rw [parse_type_end_mem]
  rfl

theorem parse_type_static
    (pe : scconf_block → List scconf_entry → Nat → Result (List scconf_entry))
    (hpe : ∀ b sub d o, pe b sub d = .ok o → static_entries o.mem = static_entries sub)
    (config : scconf_context) (block : scconf_block) (e : scconf_entry) (depth : Nat)
    (o : Out scconf_entry) (h : parse_type pe config block e depth = .ok o) :
    o.mem.static = e.static := by
  obtain ⟨name, type, parm, arg, flags⟩ := e
  cases type
  case BLOCK =>
    cases parm <;> simp only [parse_type] at h
    case entries sub =>
      cases hx : pe block sub (depth + 1) with
      | error f => rw [hx] at h; cases h
      | ok o2 =>
        rw [hx] at h
        cases h
        rw [parse_type_end_static]
        simp [scconf_entry.static, Parm.static, hpe block sub (depth + 1) o2 hx]
    case null =>
      cases h
      rw [parse_type_end_static]
      rfl
    all_goals cases h
  case CALLBACK =>
    cases parm <;> simp only [parse_type] at h <;> cases h <;>
      (rw [parse_type_end_static]; rfl)
  case other tag =>
    simp only [parse_type] at h
    cases h
    rw [parse_type_end_static]
    rfl
  case LIST =>
    simp only [parse_type] at h
    split at h
    · cases h
      rw [parse_type_end_static]
      rfl
    · cases parm <;> simp only at h
      case null =>
        split at h
        · split at h
          · cases h
          · cases h
            rw [parse_type_end_static]
            rfl
        · cases h
          rw [parse_type_end_static]
          rfl
      case listp v0 =>
        split at h
        · cases h
          rw [parse_type_end_static]
          rfl
        · split at h
          · split at h
            · cases h
            · cases h
              rw [parse_type_end_static]
              rfl
          · cases h
            rw [parse_type_end_static]
            rfl
      all_goals cases h
  case BOOLEAN =>
    simp only [parse_type] at h
    split at h
    · cases h
    · cases parm <;> simp only at h <;> cases h <;> (rw [parse_type_end_static]; rfl)
  case INTEGER =>
    simp only [parse_type] at h
    split at h
    · cases h
    · cases parm <;> simp only at h <;> cases h <;> (rw [parse_type_end_static]; rfl)
  case STRING =>
    simp only [parse_type] at h
    split at h
    · cases h
      rw [parse_type_end_static]
      rfl
    · cases h
      rw [parse_type_end_static]
      rfl
    · cases parm <;> simp only at h
      case null =>
        cases h
        rw [parse_type_end_static]
        rfl
      case strp p =>
        split at h
        · cases h
          rw [parse_type_end_static]
          cases arg <;> rfl
        · cases h
      case buf bytes =>
        split at h
        · cases h
        · split at h
          · rename_i hal hlen
            cases h
            rw [parse_type_end_static]
            simp only [scconf_entry.static, Parm.static, List.length_append, List.length_drop,
              List.length_cons] at hlen ⊢
            congr 3
            omega
          · cases h
      all_goals cases h

theorem parse_blocks_static (pt : scconf_block → scconf_entry → Result scconf_entry)
    (hpt : ∀ b e o, pt b e = .ok o → o.mem.static = e.static)
    (bs : List scconf_block) (e : scconf_entry) (o : Out scconf_entry)
    (h : parse_blocks pt bs e = .ok o) : o.mem.static = e.static := by
  induction bs generalizing e o with
  | nil =>
    simp only [parse_blocks] at h
    cases h
    rfl
  | cons b bs ih =>
    simp only [parse_blocks] at h
    cases hx : pt b e with
    | error f => rw [hx] at h; cases h
    | ok o1 =>
      rw [hx] at h
      simp only at h
      split at h
      · cases h
        exact hpt b e o hx
      · split at h
        · cases h
          exact hpt b e o hx
        · cases hy : parse_blocks pt bs o1.mem with
          | error f => rw [hy] at h; cases h
          | ok o2 =>
            rw [hy] at h
            cases h
            exact (ih o1.mem o2 hy).trans (hpt b e o1 hx)

theorem entry_step_static (pt : scconf_block → scconf_entry → Result scconf_entry)
    (hpt : ∀ b e o, pt b e = .ok o → o.mem.static = e.static)
    (config : scconf_context) (block : scconf_block) (e : scconf_entry) (o : Out scconf_entry)
    (h : entry_step pt config block e = .ok o) : o.mem.static = e.static := by
  unfold entry_step at h
  split at h
  · cases h
    rfl
  · exact parse_blocks_static pt hpt _ e o h

theorem parse_entries_loop_static (pt : scconf_block → scconf_entry → Result scconf_entry)
    (hpt : ∀ b e o, pt b e = .ok o → o.mem.static = e.static)
    (config : scconf_context) (block : scconf_block) (S : List scconf_entry)
    (o : Out (List scconf_entry)) (h : parse_entries_loop pt config block S = .ok o) :
    static_entries o.mem = static_entries S := by
  induction S generalizing o with
  | nil =>
    simp only [parse_entries_loop] at h
    cases h
    rfl
  | cons e rest ih =>
    rw [parse_entries_loop_cons] at h
    cases hx : entry_step pt config block e with
    | error f => rw [hx] at h; cases h
    | ok o1 =>
      rw [hx] at h
      simp only at h
      have h1 := entry_step_static pt hpt config block e o1 hx
      split at h
      · cases h
        simp only [static_entries, h1]
      · cases hy : parse_entries_loop pt config block rest with
        | error f => rw [hy] at h; cases h
        | ok o2 =>
          rw [hy] at h
          cases h
          simp only [static_entries, h1, ih o2 hy]

theorem parse_entries_static (n : Nat) :
    ∀ (config : scconf_context) (block : scconf_block) (S : List scconf_entry) (d : Nat)
      (o : Out (List scconf_entry)), parse_entries n config block S d = .ok o →
      static_entries o.mem = static_entries S := by
  induction n with
  | zero =>
    intro config block S d o h
    simp [parse_entries] at h
  | succ n ih =>
    intro config block S d o h
    simp only [parse_entries] at h
    refine parse_entries_loop_static _ ?_ config block S o h
    intro b e o1 h1
    exact parse_type_static _ (fun b2 sub d2 o2 h2 => ih config b2 sub d2 o2 h2)
      config b e d o1 h1

theorem decode_static (config : scconf_context) (block : scconf_block)
    (S : List scconf_entry) (d : Nat) (o : Out (List scconf_entry))
    (h : decode config block S d = .ok o) : static_entries o.mem = static_entries S :=
  parse_entries_static _ config block S d o h

theorem decode_type_static (config : scconf_context) (d : Nat) (block : scconf_block)
    (e : scconf_entry) (o : Out scconf_entry) (h : decode_type config d block e = .ok o) :
    o.mem.static = e.static :=
  parse_type_static _ (fun b sub d2 o2 h2 => decode_static config b sub d2 o2 h2)
    config block e d o h

theorem static_flags (e e1 : scconf_entry) (h : e1.static = e.static) :
    e1.flags = { e.flags with PRESENT := e1.flags.PRESENT } := by
  obtain ⟨n, t, p, a, f⟩ := e
  obtain ⟨n1, t1, p1, a1, f1⟩ := e1
  simp only [scconf_entry.static, scconf_entry.mk.injEq, Flags.mk.injEq, true_and] at h
  obtain ⟨-, -, -, -, h1, h2, h3, h4⟩ := h
  cases f
  cases f1
  simp only [scconf_entry.flags, Flags.mk.injEq, true_and] at h1 h2 h3 h4 ⊢
  exact ⟨h1, h2, h3, h4⟩

theorem parse_entries_loop_success (pt : scconf_block → scconf_entry → Result scconf_entry)
    (hpt : ∀ b e o, pt b e = .ok o → o.status = 0 → o.mem.flags.PRESENT = true)
    (hst : ∀ b e o, pt b e = .ok o → o.mem.static = e.static)
    (config : scconf_context) (block : scconf_block) (S : List scconf_entry)
    (o : Out (List scconf_entry)) (h : parse_entries_loop pt config block S = .ok o)
    (hs : o.status = 0) : List.Forall₂ (present_frame config block) S o.mem := by
  induction S generalizing o with
  | nil =>
    simp only [parse_entries_loop] at h
    cases h
    exact List.Forall₂.nil
  | cons e rest ih =>
    rw [parse_entries_loop_cons] at h
    cases hx : entry_step pt config block e with
    | error f => rw [hx] at h; cases h
    | ok o1 =>
      rw [hx] at h
      simp only at h
      split at h
      · rename_i hz
        cases h
        exact absurd hs hz
      · rename_i hz
        simp only [ne_eq, not_not] at hz
        cases hy : parse_entries_loop pt config block rest with
        | error f => rw [hy] at h; cases h
        | ok o2 =>
          rw [hy] at h
          cases h
          refine List.Forall₂.cons ⟨?_, ?_⟩ (ih o2 hy hs)
          · intro hc
            have hstat := entry_step_static pt hst config block e o1 hx
            unfold entry_step at hx
            cases hcs : candidates config block e with
            | nil => exact absurd hcs hc
            | cons c cs =>
              rw [hcs] at hx
              have hp := parse_blocks_present pt hpt (c :: cs) e o1 hx hz (Or.inr (by simp))
              rw [static_flags e o1.mem hstat, hp]
          · intro hc
            unfold entry_step at hx
            rw [hc] at hx
            cases hx
            rfl

/-- C12: after a call of `scconf_parse_entries` that returns 0, every entry of
the schema that had a candidate has Present set and its other flags as before,
every entry that had none is as it was before the call, and the static part of
the schema is unchanged: at every nesting level each entry keeps its name, its
type, what its `parm` points to and its flags Mandatory, AllMatches, OwnedCopy
and Verbose. -/
theorem C12_flags_frame (config : scconf_context) (block : Option scconf_block)
    (S : List scconf_entry) (o : Out (List scconf_entry))
    (h : scconf_parse_entries config block (some S) = .ok o) (hs : o.status = 0) :
    List.Forall₂ (present_frame config (start_block config block)) S o.mem ∧
      static_entries o.mem = static_entries S := by
  rw [scconf_parse_entries_some] at h
  refine ⟨?_, decode_static config _ S 0 o h⟩
  rw [decode_eq] at h
  exact parse_entries_loop_success _
    (fun b e o1 h1 h2 => parse_type_status_zero_present _ config b e 0 o1 h1 h2)
    (fun b e o1 h1 => decode_type_static config 0 b e o1 h1)
    config (start_block config block) S o h hs

theorem C12_flags_frame_witness :
    ∃ o, scconf_parse_entries tree_num_abc none (some [entry_num, entry_str_optional]) =
        .ok o ∧ o.status = 0 ∧
      List.Forall₂ (present_frame tree_num_abc (start_block tree_num_abc none))
        [entry_num, entry_str_optional] o.mem ∧
      static_entries o.mem = static_entries [entry_num, entry_str_optional] :=
  ⟨_, rfl, by decide, C12_flags_frame tree_num_abc none [entry_num, entry_str_optional] _ rfl
    (by decide)⟩

/-! ## C18: the depth a callback is called with -/

theorem candidates_congr (config : scconf_context) (block : scconf_block)
    (e e1 : scconf_entry) (h : e1.name = e.name) :
    candidates config block e1 = candidates config block e := by
  unfold candidates getblocks
  rw [h]

theorem static_callback (e : scconf_entry) (n : CStr) (f : callback_t) (a : Option Nat)
    (fl : Flags) (h : e.static = (scconf_entry.mk n .CALLBACK (.func f) a fl).static) :
    ∃ a1 fl1, e = .mk n .CALLBACK (.func f) a1 fl1 := by
  obtain ⟨n1, t1, p1, a1, f1⟩ := e
  simp only [scconf_entry.static, Parm.static, scconf_entry.mk.injEq] at h
  obtain ⟨h1, h2, h3, -, -⟩ := h
  subst h1 h2
  cases p1 <;> simp only [Parm.static] at h3 <;> cases h3
  exact ⟨a1, f1, rfl⟩

theorem static_block (e : scconf_entry) (n : CStr) (sub : List scconf_entry)
    (a : Option Nat) (fl : Flags)
    (h : e.static = (scconf_entry.mk n .BLOCK (.entries sub) a fl).static) :
    ∃ sub1 a1 fl1, e = .mk n .BLOCK (.entries sub1) a1 fl1 ∧
      static_entries sub1 = static_entries sub := by
  obtain ⟨n1, t1, p1, a1, f1⟩ := e
  simp only [scconf_entry.static, Parm.static, scconf_entry.mk.injEq] at h
  obtain ⟨h1, h2, h3, -, -⟩ := h
  subst h1 h2
  cases p1
  case entries sub1 =>
    simp only [Parm.static, Parm.entries.injEq] at h3
    exact ⟨sub1, a1, f1, rfl, h3⟩
  all_goals simp [Parm.static] at h3

theorem static_mem (S S1 : List scconf_entry) (h : static_entries S1 = static_entries S)
    (e : scconf_entry) (he : e ∈ S) : ∃ e1 ∈ S1, e1.static = e.static := by
  rw [static_entries_eq_map, static_entries_eq_map] at h
  have hm : e.static ∈ S1.map scconf_entry.static := by
    rw [h]
    exact List.mem_map_of_mem _ he
  obtain ⟨e1, h1, h2⟩ := List.mem_map.mp hm
  exact ⟨e1, h1, h2⟩

theorem reach_static (config : scconf_context) (k : Nat) (b : scconf_block)
    (S : List scconf_entry) (c : scconf_block) (n : CStr) (f : callback_t)
    (h : Reach config k b S c n f) :
    ∀ S1, static_entries S1 = static_entries S → Reach config k b S1 c n f := by
  induction h with
  | here b S c n f arg flags hmem hc =>
    intro S1 hS
    obtain ⟨e1, he1, hst⟩ := static_mem S S1 hS _ hmem
    obtain ⟨a1, fl1, rfl⟩ := static_callback e1 n f arg flags hst
    exact Reach.here b S1 c n f a1 fl1 he1
      (by rw [candidates_congr config b (.mk n .CALLBACK (.func f) arg flags)
        (.mk n .CALLBACK (.func f) a1 fl1) rfl]; exact hc)
  | nested k b S sub c1 c n f ename arg flags hmem hc _ ih =>
    intro S1 hS
    obtain ⟨e1, he1, hst⟩ := static_mem S S1 hS _ hmem
    obtain ⟨sub1, a1, fl1, rfl, hsub⟩ := static_block e1 ename sub arg flags hst
    exact Reach.nested k b S1 sub1 c1 c n f ename a1 fl1 he1
      (by rw [candidates_congr config b (.mk ename .BLOCK (.entries sub) arg flags)
            (.mk ename .BLOCK (.entries sub1) a1 fl1) rfl]
          exact hc)
      (ih sub1 hsub)

theorem parse_type_events
    (pe : scconf_block → List scconf_entry → Nat → Result (List scconf_entry))
    (config : scconf_context)
    (hpe : ∀ b sub d o, pe b sub d = .ok o → ∀ ev ∈ o.trace, event_of_schema config b sub d ev)
    (block : scconf_block) (e : scconf_entry) (depth : Nat)
    (o : Out scconf_entry) (h : parse_type pe config block e depth = .ok o) :
    ∀ ev ∈ o.trace, event_of_entry config block e depth ev := by
  obtain ⟨name, type, parm, arg, flags⟩ := e
  obtain ⟨r, parm1, arg1, tr, rfl, hc⟩ := parse_type_cases pe config block name type parm arg
    flags depth o h
  rw [parse_type_end_trace]
  intro ev hev n c2 dd s heq
  subst heq
  rcases List.mem_cons.mp hev with hev | hev
  · cases hev
  · rcases hc with ⟨rfl, -, -⟩ | ⟨f, rfl, rfl, hr, rfl⟩ | ⟨sub, o2, rfl, rfl, hx, rfl, rfl, -⟩
    · cases hev
    · simp only [List.mem_singleton, Event.callback.injEq] at hev
      obtain ⟨rfl, rfl, rfl, rfl⟩ := hev
      exact Or.inl ⟨f, arg, flags, rfl, rfl, rfl, hr⟩
    · obtain ⟨k, f, h1, h2, h3⟩ := hpe block sub (depth + 1) o2 hx _ hev n c2 dd s rfl
      exact Or.inr ⟨name, sub, arg, flags, k, f, rfl, h1, h2, h3⟩

theorem event_of_entry_schema (config : scconf_context) (b : scconf_block)
    (S : List scconf_entry) (d : Nat) (e0 e : scconf_entry) (c : scconf_block) (ev : Event)
    (he0 : e0 ∈ S) (hc : c ∈ candidates config b e0) (hst : e.static = e0.static)
    (h : event_of_entry config c e d ev) : event_of_schema config b S d ev := by
  intro n c2 dd s heq
  rcases h n c2 dd s heq with ⟨f, arg, flags, rfl, rfl, rfl, rfl⟩ |
    ⟨ename, sub, arg, flags, k, f, rfl, hr, rfl, rfl⟩
  · obtain ⟨a1, fl1, rfl⟩ := static_callback e0 n f arg flags hst.symm
    exact ⟨0, f, Reach.here b S c2 n f a1 fl1 he0 hc, rfl, rfl⟩
  · obtain ⟨sub1, a1, fl1, rfl, hsub⟩ := static_block e0 ename sub arg flags hst.symm
    exact ⟨k + 1, f, Reach.nested k b S sub1 c c2 n f ename a1 fl1 he0 hc
      (reach_static config k c sub c2 n f hr sub1 hsub), by omega, rfl⟩

theorem parse_blocks_events (pt : scconf_block → scconf_entry → Result scconf_entry)
    (config : scconf_context) (d : Nat)
    (hst : ∀ b e o, pt b e = .ok o → o.mem.static = e.static)
    (hev : ∀ c e o, pt c e = .ok o → ∀ ev ∈ o.trace, event_of_entry config c e d ev)
    (b : scconf_block) (S : List scconf_entry) (e0 : scconf_entry) (he0 : e0 ∈ S)
    (bs : List scconf_block) (hbs : ∀ c ∈ bs, c ∈ candidates config b e0)
    (e : scconf_entry) (he : e.static = e0.static) (o : Out scconf_entry)
    (h : parse_blocks pt bs e = .ok o) :
    ∀ ev ∈ o.trace, event_of_schema config b S d ev := by
  induction bs generalizing e o with
  | nil =>
    simp only [parse_blocks] at h
    cases h
    intro ev hmem
    cases hmem
  | cons c cs ih =>
    simp only [parse_blocks] at h
    cases hx : pt c e with
    | error f => rw [hx] at h; cases h
    | ok o1 =>
      rw [hx] at h
      have hc : c ∈ candidates config b e0 := hbs c (List.mem_cons_self _ _)
      have h1 : ∀ ev ∈ o1.trace, event_of_schema config b S d ev := fun ev hmem =>
        event_of_entry_schema config b S d e0 e c ev he0 hc he (hev c e o1 hx ev hmem)
      simp only at h
      split at h
      · cases h
        exact h1
      · split at h
        · cases h
          exact h1
        · cases hy : parse_blocks pt cs o1.mem with
          | error f => rw [hy] at h; cases h
          | ok o2 =>
            rw [hy] at h
            cases h
            intro ev hmem
            rcases List.mem_append.mp hmem with hm | hm
            · exact h1 ev hm
            · exact ih (fun c2 hc2 => hbs c2 (List.mem_cons_of_mem _ hc2)) o1.mem
                ((hst c e o1 hx).trans he) o2 hy ev hm

theorem parse_entries_loop_events (pt : scconf_block → scconf_entry → Result scconf_entry)
    (config : scconf_context) (d : Nat)
    (hst : ∀ b e o, pt b e = .ok o → o.mem.static = e.static)
    (hev : ∀ c e o, pt c e = .ok o → ∀ ev ∈ o.trace, event_of_entry config c e d ev)
    (b : scconf_block) (S : List scconf_entry) (L : List scconf_entry)
    (hL : ∀ e ∈ L, e ∈ S) (o : Out (List scconf_entry))
    (h : parse_entries_loop pt config b L = .ok o) :
    ∀ ev ∈ o.trace, event_of_schema config b S d ev := by
  induction L generalizing o with
  | nil =>
    simp only [parse_entries_loop] at h
    cases h
    intro ev hmem
    cases hmem
  | cons e rest ih =>
    rw [parse_entries_loop_cons] at h
    cases hx : entry_step pt config b e with
    | error f => rw [hx] at h; cases h
    | ok o1 =>
      rw [hx] at h
      have h1 : ∀ ev ∈ o1.trace, event_of_schema config b S d ev := by
        unfold entry_step at hx
        cases hcs : candidates config b e with
        | nil =>
          rw [hcs] at hx
          cases hx
          intro ev hmem
          cases hmem
        | cons c cs =>
          rw [hcs] at hx
          exact parse_blocks_events pt config d hst hev b S e (hL e (List.mem_cons_self _ _))
            (c :: cs) (fun c2 hc2 => by rw [hcs]; exact hc2) e rfl o1 hx
      simp only at h
      split at h
      · cases h
        exact h1
      · cases hy : parse_entries_loop pt config b rest with
        | error f => rw [hy] at h; cases h
        | ok o2 =>
          rw [hy] at h
          cases h
          intro ev hmem
          rcases List.mem_append.mp hmem with hm | hm
          · exact h1 ev hm
          · exact ih (fun e2 he2 => hL e2 (List.mem_cons_of_mem _ he2)) o2 hy ev hm

theorem parse_entries_events (n : Nat) :
    ∀ (config : scconf_context) (block : scconf_block) (S : List scconf_entry) (d : Nat)
      (o : Out (List scconf_entry)), parse_entries n config block S d = .ok o →
      ∀ ev ∈ o.trace, event_of_schema config block S d ev := by
  induction n with
  | zero =>
    intro config block S d o h
    simp [parse_entries] at h
  | succ n ih =>
    intro config block S d o h
    simp only [parse_entries] at h
    refine parse_entries_loop_events _ config d ?_ ?_ block S S (fun e he => he) o h
    · intro b e o1 h1
      exact parse_type_static _ (fun b2 sub d2 o2 h2 => parse_entries_static n config b2 sub d2
        o2 h2) config b e d o1 h1
    · intro c e o1 h1
      exact parse_type_events _ config (fun b2 sub d2 o2 h2 => ih config b2 sub d2 o2 h2)
        c e d o1 h1

/-- C18: in a call of `scconf_parse_entries`, every call of a callback recorded
in the trace is the call of the callback of a Callback entry reached through
some number `k` of nested NestedSchema entries of the schema (`k = 0` for an
entry of the schema itself), made with the candidate block the entry was
matched in and with the depth `k`, and the status recorded is what the callback
returns for that block, the name of the entry and the depth `k`. -/
theorem C18_callback_depth (config : scconf_context) (block : Option scconf_block)
    (S : List scconf_entry) (o : Out (List scconf_entry))
    (h : scconf_parse_entries config block (some S) = .ok o)
    (name : CStr) (c : scconf_block) (depth : Nat) (status : Int)
    (hev : Event.callback name c depth status ∈ o.trace) :
    ∃ k f, Reach config k (start_block config block) S c name f ∧ depth = k ∧
      status = f c name k := by
  rw [scconf_parse_entries_some] at h
  obtain ⟨k, f, h1, h2, h3⟩ := parse_entries_events _ config _ S 0 o h _ hev name c depth
    status rfl
  have hk : depth = k := by omega
  subst hk
  exact ⟨depth, f, h1, rfl, h3⟩

theorem C18_callback_depth_witness :
    ∃ o, scconf_parse_entries tree_groups none (some [entry_group_nested, entry_num]) = .ok o ∧
      Event.callback [120] block_a 1 5 ∈ o.trace ∧
      ∃ k f, Reach tree_groups k (start_block tree_groups none)
          [entry_group_nested, entry_num] block_a [120] f ∧ 1 = k ∧ (5 : Int) = f block_a [120] k :=
  ⟨_, rfl, List.mem_cons_of_mem _ (List.mem_cons_of_mem _ (List.mem_singleton.mpr rfl)),
    C18_callback_depth tree_groups none [entry_group_nested, entry_num] _ rfl [120] block_a 1 5
      (List.mem_cons_of_mem _ (List.mem_cons_of_mem _ (List.mem_singleton.mpr rfl)))⟩

/-! ## C1: the decoder against the success condition of the spec -/

theorem static_name (e : scconf_entry) : e.static.name = e.name := by
  cases e
  rfl

theorem static_flags_mandatory (e : scconf_entry) :
    e.static.flags.MANDATORY = e.flags.MANDATORY := by
  cases e
  rfl

theorem static_flags_all_blocks (e : scconf_entry) :
    e.static.flags.ALL_BLOCKS = e.flags.ALL_BLOCKS := by
  cases e
  rfl

theorem visited_static (e : scconf_entry) (cands : List scconf_block) :
    visited e.static cands = visited e cands := by
  unfold visited
  rw [static_flags_all_blocks]

mutual
theorem spec_nested_static (config : scconf_context) :
    ∀ (p : Parm) (c : scconf_block) (d : Nat),
      spec_nested config p c d ↔ spec_nested config p.static c d
  | .entries sub, c, d => by
    simp only [spec_nested, Parm.static]
    exact spec_decode_static config sub c d
  | .null, _, _ => Iff.rfl
  | .func _, _, _ => Iff.rfl
  | .intp _, _, _ => Iff.rfl
  | .listp _, _, _ => Iff.rfl
  | .buf _, _, _ => Iff.rfl
  | .strp _, _, _ => Iff.rfl
theorem spec_converts_static (config : scconf_context) :
    ∀ (e : scconf_entry) (c : scconf_block) (d : Nat),
      spec_converts config e c d ↔ spec_converts config e.static c d
  | .mk name type parm arg flags, c, d => by
    cases type
    case BLOCK =>
      simp only [spec_converts, scconf_entry.static]
      exact spec_nested_static config parm c (d + 1)
    case CALLBACK =>
      cases parm <;> simp [spec_converts, scconf_entry.static, Parm.static]
    all_goals simp [spec_converts, scconf_entry.static]
theorem spec_decode_static (config : scconf_context) :
    ∀ (S : List scconf_entry) (b : scconf_block) (d : Nat),
      spec_decode_succeeds config S b d ↔ spec_decode_succeeds config (static_entries S) b d
  | [], _, _ => Iff.rfl
  | e :: rest, b, d => by
    simp only [spec_decode_succeeds, static_entries]
    rw [static_flags_mandatory, candidates_congr config b e e.static (static_name e),
      visited_static, ← spec_decode_static config rest b d]
    constructor
    · intro h
      exact ⟨h.1, fun c hc => (spec_converts_static config e c d).mp (h.2.1 c hc), h.2.2⟩
    · intro h
      exact ⟨h.1, fun c hc => (spec_converts_static config e c d).mpr (h.2.1 c hc), h.2.2⟩
end

mutual
theorem parm_recognized_static : ∀ (p : Parm), p.recognized ↔ p.static.recognized
  | .entries sub => by
    simp only [Parm.recognized, Parm.static]
    exact recognized_entries_static sub
  | .null => Iff.rfl
  | .func _ => Iff.rfl
  | .intp _ => Iff.rfl
  | .listp _ => Iff.rfl
  | .buf _ => Iff.rfl
  | .strp _ => Iff.rfl
theorem entry_recognized_static : ∀ (e : scconf_entry), e.recognized ↔ e.static.recognized
  | .mk name type parm arg flags => by
    simp only [scconf_entry.recognized, scconf_entry.static]
    rw [parm_recognized_static parm]
theorem recognized_entries_static :
    ∀ (S : List scconf_entry), recognized_entries S ↔ recognized_entries (static_entries S)
  | [] => Iff.rfl
  | e :: rest => by
    simp only [recognized_entries, static_entries]
    rw [entry_recognized_static e, recognized_entries_static rest]
end

theorem spec_converts_of_static (config : scconf_context) (e e1 : scconf_entry)
    (h : e1.static = e.static) (c : scconf_block) (d : Nat) :
    spec_converts config e1 c d ↔ spec_converts config e c d := by
  rw [spec_converts_static config e1, spec_converts_static config e, h]

theorem recognized_of_static (e e1 : scconf_entry) (h : e1.static = e.static) :
    e1.recognized ↔ e.recognized := by
  rw [entry_recognized_static e1, entry_recognized_static e, h]

theorem find_list_cons_iff (c : scconf_block) (name : CStr) :
    (∃ v vs, first_value name c.items = some (v :: vs)) ↔
      scconf_find_list (some c) name ≠ [] := by
  show _ ↔ find_list_loop name c.items ≠ []
  rw [find_list_loop_first_value]
  cases first_value name c.items with
  | none => simp
  | some l => cases l <;> simp

theorem get_str_cons_iff (c : scconf_block) (name : CStr) :
    (∃ ch cs rest, first_value name c.items = some (some (ch :: cs) :: rest)) ↔
      ∃ ch cs, scconf_get_str (some c) name none = some (ch :: cs) := by
  unfold scconf_get_str
  show _ ↔ ∃ ch cs, (match find_list_loop name c.items with
    | [] => none
    | d :: _ => d) = some (ch :: cs)
  rw [find_list_loop_first_value]
  cases first_value name c.items with
  | none => simp
  | some l =>
    cases l with
    | nil => simp
    | cons d rest =>
      cases d with
      | none => simp
      | some s => cases s <;> simp

theorem parse_type_refines
    (pe : scconf_block → List scconf_entry → Nat → Result (List scconf_entry))
    (config : scconf_context)
    (hpe : ∀ b sub d o, pe b sub d = .ok o → recognized_entries sub →
      (o.status = 0 ↔ spec_decode_succeeds config sub b d))
    (block : scconf_block) (e : scconf_entry) (depth : Nat) (o : Out scconf_entry)
    (h : parse_type pe config block e depth = .ok o) (hrec : e.recognized) :
    o.status = 0 ↔ spec_converts config e block depth := by
  obtain ⟨name, type, parm, arg, flags⟩ := e
  have hL := find_list_cons_iff block name
  have hS := get_str_cons_iff block name
  cases type
  case BLOCK =>
    cases parm <;> simp only [parse_type] at h
    case entries sub =>
      cases hx : pe block sub (depth + 1) with
      | error f => rw [hx] at h; cases h
      | ok o2 =>
        rw [hx] at h
        cases h
        rw [parse_type_end_status]
        simp only [spec_converts, spec_nested]
        exact hpe block sub (depth + 1) o2 hx hrec.2
    case null =>
      cases h
      rw [parse_type_end_status]
      simp [spec_converts, spec_nested]
    all_goals cases h
  case CALLBACK =>
    cases parm <;> simp only [parse_type] at h <;> cases h <;>
      (rw [parse_type_end_status]; simp [spec_converts])
  case other tag => exact absurd rfl (hrec.1 tag)
  case LIST =>
    simp only [parse_type] at h
    split at h
    · rename_i heq
      cases h
      rw [parse_type_end_status]
      simp [spec_converts, hL, heq]
    · rename_i v vs heq
      have hsp : spec_converts config (.mk name .LIST parm arg flags) block depth := by
        simp [spec_converts, hL, heq]
      cases parm <;> simp only at h
      case null =>
        split at h
        · split at h
          · cases h
          · cases h
            rw [parse_type_end_status]
            exact ⟨fun _ => hsp, fun _ => rfl⟩
        · cases h
          rw [parse_type_end_status]
          exact ⟨fun _ => hsp, fun _ => rfl⟩
      case listp v0 =>
        split at h
        · cases h
          rw [parse_type_end_status]
          exact ⟨fun _ => hsp, fun _ => rfl⟩
        · split at h
          · split at h
            · cases h
            · cases h
              rw [parse_type_end_status]
              exact ⟨fun _ => hsp, fun _ => rfl⟩
          · cases h
            rw [parse_type_end_status]
            exact ⟨fun _ => hsp, fun _ => rfl⟩
      all_goals cases h
  case BOOLEAN =>
    simp only [parse_type] at h
    split at h
    · cases h
    · cases parm <;> simp only at h <;> cases h <;>
        (rw [parse_type_end_status]; simp [spec_converts])
  case INTEGER =>
    simp only [parse_type] at h
    split at h
    · cases h
    · cases parm <;> simp only at h <;> cases h <;>
        (rw [parse_type_end_status]; simp [spec_converts])
  case STRING =>
    simp only [parse_type] at h
    split at h
    · rename_i heq
      cases h
      rw [parse_type_end_status]
      simp [spec_converts, hS, heq]
    · rename_i heq
      cases h
      rw [parse_type_end_status]
      simp [spec_converts, hS, heq]
    · rename_i ch cs heq
      have hsp : spec_converts config (.mk name .STRING parm arg flags) block depth := by
        simp [spec_converts, hS, heq]
      cases parm <;> simp only at h
      case null =>
        cases h
        rw [parse_type_end_status]
        exact ⟨fun _ => hsp, fun _ => rfl⟩
      case strp p =>
        split at h
        · cases h
          rw [parse_type_end_status]
          exact ⟨fun _ => hsp, fun _ => rfl⟩
        · cases h
      case buf bytes =>
        split at h
        · cases h
        · split at h
          · cases h
            rw [parse_type_end_status]
            exact ⟨fun _ => hsp, fun _ => rfl⟩
          · cases h
      all_goals cases h

theorem parse_blocks_refines (pt : scconf_block → scconf_entry → Result scconf_entry)
    (config : scconf_context) (d : Nat)
    (hst : ∀ b e o, pt b e = .ok o → o.mem.static = e.static)
    (hpt : ∀ c e o, pt c e = .ok o → e.recognized →
      (o.status = 0 ↔ spec_converts config e c d))
    (bs : List scconf_block) (e : scconf_entry) (o : Out scconf_entry)
    (h : parse_blocks pt bs e = .ok o) (hrec : e.recognized) :
    o.status = 0 ↔ ∀ c ∈ visited e bs, spec_converts config e c d := by
  induction bs generalizing e o with
  | nil =>
    simp only [parse_blocks] at h
    cases h
    simp [visited]
  | cons b bs ih =>
    simp only [parse_blocks] at h
    cases hx : pt b e with
    | error f => rw [hx] at h; cases h
    | ok o1 =>
      rw [hx] at h
      have h1 := hpt b e o1 hx hrec
      have hstat := hst b e o1 hx
      have hfl : o1.mem.flags.ALL_BLOCKS = e.flags.ALL_BLOCKS := by
        rw [static_flags e o1.mem hstat]
      have hb : b ∈ visited e (b :: bs) := by
        unfold visited
        split <;> simp
      simp only at h
      split at h
      · rename_i hz
        cases h
        constructor
        · intro hs
          exact absurd hs hz
        · intro hall
          exact h1.mpr (hall b hb)
      · rename_i hz
        simp only [ne_eq, not_not] at hz
        split at h
        · rename_i hno
          cases h
          rw [hfl] at hno
          have hv : visited e (b :: bs) = [b] := by
            unfold visited
            simp [hno]
          rw [hv]
          simp only [List.mem_singleton, forall_eq]
          exact h1
        · rename_i hyes
          simp only [Bool.not_eq_true, not_not] at hyes
          rw [hfl] at hyes
          cases hy : parse_blocks pt bs o1.mem with
          | error f => rw [hy] at h; cases h
          | ok o2 =>
            rw [hy] at h
            cases h
            have h2 := ih o1.mem o2 hy ((recognized_of_static e o1.mem hstat).mpr hrec)
            have hv : visited e (b :: bs) = b :: bs := by
              unfold visited
              simp [hyes]
            have hv2 : visited o1.mem bs = bs := by
              unfold visited
              simp [hfl, hyes]
            rw [hv]
            rw [hv2] at h2
            simp only [h2, List.forall_mem_cons]
            constructor
            · intro hall
              exact ⟨h1.mp hz, fun c hc =>
                (spec_converts_of_static config e o1.mem hstat c d).mp (hall c hc)⟩
            · intro hall c hc
              exact (spec_converts_of_static config e o1.mem hstat c d).mpr (hall.2 c hc)

theorem parse_entries_loop_refines (pt : scconf_block → scconf_entry → Result scconf_entry)
    (config : scconf_context) (d : Nat)
    (hst : ∀ b e o, pt b e = .ok o → o.mem.static = e.static)
    (hpt : ∀ c e o, pt c e = .ok o → e.recognized →
      (o.status = 0 ↔ spec_converts config e c d))
    (b : scconf_block) (S : List scconf_entry) (o : Out (List scconf_entry))
    (h : parse_entries_loop pt config b S = .ok o) (hrec : recognized_entries S) :
    o.status = 0 ↔ spec_decode_succeeds config S b d := by
  induction S generalizing o with
  | nil =>
    simp only [parse_entries_loop] at h
    cases h
    simp [spec_decode_succeeds]
  | cons e rest ih =>
    rw [parse_entries_loop_cons] at h
    simp only [spec_decode_succeeds]
    cases hx : entry_step pt config b e with
    | error f => rw [hx] at h; cases h
    | ok o1 =>
      rw [hx] at h
      have hstep : o1.status = 0 ↔
          ((e.flags.MANDATORY = true → candidates config b e ≠ []) ∧
            ∀ c ∈ visited e (candidates config b e), spec_converts config e c d) := by
        unfold entry_step at hx
        cases hcs : candidates config b e with
        | nil =>
          rw [hcs] at hx
          cases hx
          cases hm : e.flags.MANDATORY <;> simp [visited]
        | cons c cs =>
          rw [hcs] at hx
          rw [parse_blocks_refines pt config d hst hpt (c :: cs) e o1 hx hrec.1]
          simp
      simp only at h
      split at h
      · rename_i hz
        cases h
        constructor
        · intro hs
          exact absurd hs hz
        · intro hall
          exact hstep.mpr ⟨hall.1, hall.2.1⟩
      · rename_i hz
        simp only [ne_eq, not_not] at hz
        cases hy : parse_entries_loop pt config b rest with
        | error f => rw [hy] at h; cases h
        | ok o2 =>
          rw [hy] at h
          cases h
          have h2 := ih o2 hy hrec.2
          simp only [h2]
          constructor
          · intro hall
            exact ⟨(hstep.mp hz).1, (hstep.mp hz).2, hall⟩
          · intro hall
            exact hall.2.2

theorem parse_entries_refines (n : Nat) :
    ∀ (config : scconf_context) (block : scconf_block) (S : List scconf_entry) (d : Nat)
      (o : Out (List scconf_entry)), parse_entries n config block S d = .ok o →
      recognized_entries S → (o.status = 0 ↔ spec_decode_succeeds config S block d) := by
  induction n with
  | zero =>
    intro config block S d o h
    simp [parse_entries] at h
  | succ n ih =>
    intro config block S d o h hrec
    simp only [parse_entries] at h
    refine parse_entries_loop_refines _ config d ?_ ?_ block S o h hrec
    · intro b e o1 h1
      exact parse_type_static _ (fun b2 sub d2 o2 h2 => parse_entries_static n config b2 sub d2
        o2 h2) config b e d o1 h1
    · intro c e o1 h1 hr
      exact parse_type_refines _ config (fun b2 sub d2 o2 h2 hr2 => ih config b2 sub d2 o2 h2
        hr2) c e d o1 h1 hr

/-- For a schema whose declared types are all among the six of the spec, a
call of `scconf_parse_entries` that returns does so with the status 0 exactly
when the decode succeeds in the words of the spec: every Mandatory entry has a
candidate and the value of every entry converts without error for each
candidate the entry decodes. -/
theorem scconf_parse_entries_refines (config : scconf_context)
    (block : Option scconf_block) (S : List scconf_entry) (o : Out (List scconf_entry))
    (h : scconf_parse_entries config block (some S) = .ok o)
    (hrec : recognized_entries S) :
    o.status = 0 ↔ spec_decode_succeeds config S (start_block config block) 0 := by
  rw [scconf_parse_entries_some] at h
  exact parse_entries_refines _ config _ S 0 o h hrec

/-- C1, evaluated at the failing input: in the tree `num = abc;` the entry `num`
whose type tag is 99 is not Mandatory and has the root as its candidate; in the
words of the spec its value does not convert (an unrecognized declared type
fails with the "invalid type" condition), so the decode does not succeed; and
`scconf_parse_entries` returns 0. -/
theorem C1_unrecognized_type_returns_zero :
    entry_num_99.flags.MANDATORY = false ∧
      candidates tree_num_abc tree_num_abc.root entry_num_99 = [tree_num_abc.root] ∧
      ¬ spec_converts tree_num_abc entry_num_99 tree_num_abc.root 0 ∧
      ¬ spec_decode_succeeds tree_num_abc [entry_num_99] (start_block tree_num_abc none) 0 ∧
      ∃ o, scconf_parse_entries tree_num_abc none (some [entry_num_99]) = .ok o ∧
        o.status = 0 :=
  ⟨rfl, rfl, fun h => h, fun h => h.2.1 tree_num_abc.root (List.mem_singleton.mpr rfl),
    _, rfl, rfl⟩

end Scconf
